import Mathlib

set_option autoImplicit false

namespace Litecask

/-- Status codes returned by the public datastore API.
Modelled from the spec: section 6 status taxonomy of the litecask engine
(the implementation header `litecask.h` is not part of the provided sources;
only its unit tests are, so the engine is modelled from the specification,
cross-checked against the behaviour asserted by the tests). -/
inductive Status where
  | Ok
  | StoreNotOpen
  | StoreAlreadyOpen
  | StoreAlreadyInUse
  | CannotOpenStore
  | BadDiskAccess
  | BadKeySize
  | BadValueSize
  | InconsistentKeyIndex
  | UnorderedKeyIndex
  | EntryNotFound
  | EntryCorrupted
  | OutOfMemory
  | BadParameterValue
  | InconsistentParameterValues
  deriving DecidableEq

/-- Keys are opaque byte sequences (bytes modelled as naturals). -/
abbrev Key := List Nat

/-- Values are opaque byte sequences. -/
abbrev Value := List Nat

/-- Modelled from the spec: a `KeyIndex` names a substring of the key
(`startIdx`, `size`, both `u8` in the C++ struct) used as a searchable tag. -/
structure KeyIndex where
  startIdx : Nat
  size : Nat
  deriving DecidableEq

/-- Modelled from the spec: at most 64 key indexes may be declared per entry. -/
def MaxKeyIndexQty : Nat := 64

/-- Modelled from the spec: maximum value size, `0xFFFF0000` bytes. -/
def MaxValueSize : Nat := 4294901760

/-- Modelled from the spec: keys have length 1..65534. -/
def keySizeOk (n : Nat) : Prop := 1 ≤ n ∧ n ≤ 65534

instance (n : Nat) : Decidable (keySizeOk n) := by
  unfold keySizeOk; infer_instance

/-- Modelled from the spec: strict lexicographic order on `(startIdx, size)`
used to check that the declared key indexes are strictly ordered. -/
def kiLt (a b : KeyIndex) : Prop :=
  a.startIdx < b.startIdx ∨ (a.startIdx = b.startIdx ∧ a.size < b.size)

instance (a b : KeyIndex) : Decidable (kiLt a b) := by
  unfold kiLt; infer_instance

/-- Modelled from the spec: a single key index is consistent with a key of
length `keyLen` when it has a non-zero size and does not name bytes beyond the
key. The zero-size rejection follows the unit test
`test_index.cpp` ("Null size" case of "Base query"), which refines the
spec's wording `offset+size exceeds key length`. -/
def kiBad (keyLen : Nat) (ki : KeyIndex) : Prop :=
  ki.size = 0 ∨ keyLen < ki.startIdx + ki.size

instance (keyLen : Nat) (ki : KeyIndex) : Decidable (kiBad keyLen ki) := by
  unfold kiBad; infer_instance

/-- Modelled from the spec: strict ordering of the key-index array on
`(startIdx, size)` — every adjacent pair strictly increasing. -/
def kiStrictOrdered : List KeyIndex → Bool
  | [] => true
  | [_] => true
  | a :: b :: t => decide (kiLt a b) && kiStrictOrdered (b :: t)

/-- Modelled from the spec: validation performed by `put` on its arguments,
before any mutation: key size 1..65534 (`BadKeySize`), value size at most
`0xFFFF0000` (`BadValueSize`), then key-index consistency
(`InconsistentKeyIndex`: more than 64 indexes, a zero-size index, or an index
reaching beyond the key), then strict `(startIdx, size)` ordering
(`UnorderedKeyIndex`). -/
def checkPutArgs (keyLen valueLen : Nat) (idxs : List KeyIndex) : Status :=
  if ¬ keySizeOk keyLen then .BadKeySize
  else if MaxValueSize < valueLen then .BadValueSize
  else if MaxKeyIndexQty < idxs.length ∨ ∃ ki ∈ idxs, kiBad keyLen ki then .InconsistentKeyIndex
  else if kiStrictOrdered idxs = true then .Ok
  else .UnorderedKeyIndex

/-- Modelled from the spec: the configuration structure of the datastore
(README `struct Config`), with the default values given there. -/
structure Config where
  dataFileMaxBytes : Nat := 100000000
  mergeCyclePeriodMs : Nat := 60000
  upkeepCyclePeriodMs : Nat := 1000
  writeBufferFlushPeriodMs : Nat := 5000
  upkeepKeyDirBatchSize : Nat := 100000
  upkeepValueCacheBatchSize : Nat := 10000
  valueCacheTargetMemoryLoadPercentage : Nat := 90
  mergeTriggerDataFileFragmentationPercentage : Nat := 60
  mergeTriggerDataFileDeadByteThreshold : Nat := 51200000
  mergeSelectDataFileFragmentationPercentage : Nat := 40
  mergeSelectDataFileDeadByteThreshold : Nat := 12800000
  mergeSelectDataFileSmallSizeThreshold : Nat := 10000000
  deriving DecidableEq

/-- Modelled from the spec: per-field range validation of `setConfig`
(`dataFileMaxBytes >= 1024`, non-zero cycle periods and batch sizes,
fragmentation percentages in 1..100, target cache load at most 100,
`mergeSelectDataFileSmallSizeThreshold >= 1024`;
`writeBufferFlushPeriodMs` is unconstrained). -/
def configRangesOk (c : Config) : Prop :=
  1024 ≤ c.dataFileMaxBytes ∧
  1 ≤ c.mergeCyclePeriodMs ∧
  1 ≤ c.upkeepCyclePeriodMs ∧
  1 ≤ c.upkeepKeyDirBatchSize ∧
  1 ≤ c.upkeepValueCacheBatchSize ∧
  c.valueCacheTargetMemoryLoadPercentage ≤ 100 ∧
  1 ≤ c.mergeTriggerDataFileFragmentationPercentage ∧
  c.mergeTriggerDataFileFragmentationPercentage ≤ 100 ∧
  1 ≤ c.mergeSelectDataFileFragmentationPercentage ∧
  c.mergeSelectDataFileFragmentationPercentage ≤ 100 ∧
  1024 ≤ c.mergeSelectDataFileSmallSizeThreshold

instance (c : Config) : Decidable (configRangesOk c) := by
  unfold configRangesOk; infer_instance

/-- Modelled from the spec: cross-field validation of `setConfig`: each merge
selection threshold must not exceed its corresponding trigger threshold, and
the trigger dead-byte threshold must not exceed `dataFileMaxBytes` (asserted
by the "Config consistency" unit test with `dataFileMaxBytes=11000`,
`mergeTriggerDataFileDeadByteThreshold=11001`). -/
def configCrossOk (c : Config) : Prop :=
  c.mergeSelectDataFileFragmentationPercentage ≤ c.mergeTriggerDataFileFragmentationPercentage ∧
  c.mergeSelectDataFileDeadByteThreshold ≤ c.mergeTriggerDataFileDeadByteThreshold ∧
  c.mergeTriggerDataFileDeadByteThreshold ≤ c.dataFileMaxBytes

instance (c : Config) : Decidable (configCrossOk c) := by
  unfold configCrossOk; infer_instance

/-- Modelled from the spec: the whole-configuration check run by `setConfig`
before anything is applied: range checks first (`BadParameterValue`),
then cross-field checks (`InconsistentParameterValues`). -/
def checkConfig (c : Config) : Status :=
  if ¬ configRangesOk c then .BadParameterValue
  else if ¬ configCrossOk c then .InconsistentParameterValues
  else .Ok

/-- Cache entries pair the originating key bytes with the cached value bytes
(the key bytes are stored alongside the value and verified on lookup). -/
abbrev CEntry := Key × Value

/-- Modelled from the spec: the segmented-LRU value cache with its three
logical queues `hot` (recently inserted, not re-accessed), `warm` (accessed at
least once after insertion) and `cold` (demoted from warm under eviction
pressure). List heads are the most recently touched ends; queue tails are
evicted. Capacity is counted in entries (the byte-exact TLSF arena is out of
scope of the claims treated here). -/
structure Cache where
  hot : List CEntry
  warm : List CEntry
  cold : List CEntry
  capacity : Nat
  deriving DecidableEq

/-- Number of values currently held in the cache (the counter
`currentInCacheValueQty` of the value-cache instrumentation). -/
def cacheSize (c : Cache) : Nat :=
  c.hot.length + c.warm.length + c.cold.length

/-- Remove every entry carrying key `k` from one queue. -/
def eraseKey (l : List CEntry) (k : Key) : List CEntry :=
  l.filter (fun e => e.1 ≠ k)

/-- Find the value stored for key `k` in one queue. -/
def segFind (l : List CEntry) (k : Key) : Option Value :=
  match l with
  | [] => none
  | e :: t => if e.1 = k then some e.2 else segFind t k

/-- Find the value stored for key `k` anywhere in the cache. -/
def cacheFindVal (c : Cache) (k : Key) : Option Value :=
  match segFind c.hot k with
  | some v => some v
  | none =>
    match segFind c.warm k with
    | some v => some v
    | none => segFind c.cold k

/-- Modelled from the spec: evict a single cache entry; eviction prefers the
cold queue, then the hot tail, then the warm tail. -/
def evictOne (c : Cache) : Cache :=
  if c.cold ≠ [] then { c with cold := c.cold.dropLast }
  else if c.hot ≠ [] then { c with hot := c.hot.dropLast }
  else { c with warm := c.warm.dropLast }

/-- Evict entries (fuel-bounded loop) until the cache holds at most
`capacity` entries. -/
def evictLoop : Cache → Nat → Cache
  | c, 0 => c
  | c, n + 1 => if cacheSize c ≤ c.capacity then c else evictLoop (evictOne c) n

/-- Push a value at the head of the hot queue, replacing any previous entry
for the same key. -/
def cachePushHot (c : Cache) (k : Key) (v : Value) : Cache :=
  { c with hot := (k, v) :: eraseKey c.hot k,
           warm := eraseKey c.warm k,
           cold := eraseKey c.cold k }

/-- Modelled from the spec: inserting a value into the cache places it at the
head of the hot queue (any previous entry for the same key is replaced, never
duplicated), then evicts until the cache fits its capacity. -/
def cacheInsert (c : Cache) (k : Key) (v : Value) : Cache :=
  evictLoop (cachePushHot c k v) (cacheSize (cachePushHot c k v))

/-- Modelled from the spec: a cache hit moves the entry to the head of the
warm queue — a hot hit promotes to warm, a warm hit is the intra-warm bump,
and a cold hit rescues the demoted entry back to warm. -/
def cacheLookup (c : Cache) (k : Key) : Option (Value × Cache) :=
  match cacheFindVal c k with
  | none => none
  | some v =>
    some (v, { c with hot := eraseKey c.hot k,
                      warm := (k, v) :: eraseKey c.warm k,
                      cold := eraseKey c.cold k })

/-- Remove the cached value of key `k` (used by `remove`, which purges the
cached value within the same call). -/
def cachePurge (c : Cache) (k : Key) : Cache :=
  { c with hot := eraseKey c.hot k,
           warm := eraseKey c.warm k,
           cold := eraseKey c.cold k }

/-- Modelled from the spec: under eviction pressure the background upkeep
task demotes the warm tail to the cold queue head; a demoted entry is evicted
only if it is not accessed again before the cold queue drains. -/
def cacheDemote (c : Cache) : Cache :=
  match c.warm.getLast? with
  | none => c
  | some e => { c with warm := c.warm.dropLast, cold := e :: c.cold }

/-- Record of a data file, holding header fields, key and value bytes.
Modelled from the spec: `DataFileEntry` followed by indexes, key and value; a
tombstone is a record with the deleted flag and no value bytes. -/
structure DataRec where
  key : Key
  value : Value
  ttlDeadlineSec : Nat
  tomb : Bool
  indexes : List KeyIndex
  deriving DecidableEq

/-- Location stored in the key directory: the file holding the newest record
of the key, the position of the record in that file, and the TTL deadline
(0 meaning "never expires"). -/
structure Loc where
  fileId : Nat
  recIdx : Nat
  ttlDeadlineSec : Nat
  deriving DecidableEq

/-- Find the value bound to key `k` in an association list (first match). -/
def alistFind {α : Type} [DecidableEq α] {β : Type} : List (α × β) → α → Option β
  | [], _ => none
  | (k', b) :: t, k => if k' = k then some b else alistFind t k

/-- Replace the binding of key `k` (or append it when absent). -/
def alistUpsert {α : Type} [DecidableEq α] {β : Type} : List (α × β) → α → β → List (α × β)
  | [], k, b => [(k, b)]
  | (k', b') :: t, k, b => if k' = k then (k, b) :: t else (k', b') :: alistUpsert t k b

/-- Remove the binding of key `k`. -/
def alistErase {α : Type} [DecidableEq α] {β : Type} : List (α × β) → α → List (α × β)
  | [], _ => []
  | p :: t, k => if p.1 = k then alistErase t k else p :: alistErase t k

/-- Modelled from the spec: the datastore state — sealed data files keyed by
their 16-bit file id, the single active file split into its on-disk part
(`flushed`) and the in-memory write buffer (`wbuf`), the in-memory key
directory, the secondary index mapping key-part bytes to candidate keys, the
value cache, the configuration and the injected wall-clock time in seconds.
Concurrency is modelled by the single-writer linearisation the spec
guarantees: operations are applied in their serialisation order. -/
structure Datastore where
  sealedFiles : List (Nat × List DataRec)
  activeId : Nat
  flushed : List DataRec
  wbuf : List DataRec
  keyDir : List (Key × Loc)
  tagIndex : List (Key × List Key)
  cache : Cache
  config : Config
  now : Nat
  deriving DecidableEq

/-- Record sequence of file `fid`: for the active file the write buffer is
reader-visible and covers the tail of the file. -/
def lookupFile (s : Datastore) (fid : Nat) : List DataRec :=
  if fid = s.activeId then s.flushed ++ s.wbuf
  else (alistFind s.sealedFiles fid).getD []

/-- Record a key-directory location points at. -/
def recordAt (s : Datastore) (loc : Loc) : Option DataRec :=
  (lookupFile s loc.fileId)[loc.recIdx]?

/-- Modelled from the spec: `ttlDeadlineSec = 0` never expires; otherwise the
entry is filtered out exactly when the current time is at or past the
deadline. -/
def isExpired (now deadline : Nat) : Bool :=
  decide (deadline ≠ 0 ∧ deadline ≤ now)

/-- TTL deadline stored on put: `0` when `ttlSec = 0` (never expires), the
wall-clock time plus `ttlSec` otherwise. -/
def mkDeadline (now ttlSec : Nat) : Nat :=
  if ttlSec = 0 then 0 else now + ttlSec

/-- Substring of the key named by a key index. -/
def extractPart (k : Key) (ki : KeyIndex) : Key :=
  (k.drop ki.startIdx).take ki.size

/-- Append key `k` to the candidate array of key-part `part`
(with de-duplication). -/
def tagAdd (m : List (Key × List Key)) (part k : Key) : List (Key × List Key) :=
  match alistFind m part with
  | some ks => alistUpsert m part (if k ∈ ks then ks else ks ++ [k])
  | none => m ++ [(part, [k])]

/-- Register every declared key index of key `k` in the secondary index. -/
def tagAddAll (m : List (Key × List Key)) (k : Key) (idxs : List KeyIndex) : List (Key × List Key) :=
  idxs.foldl (fun m' ki => tagAdd m' (extractPart k ki) k) m

/-- Modelled from the spec: `put` — validate, append the record to the write
buffer of the active file, point the key directory at it, register the
declared key indexes, and insert the value into the cache. A rejected put
leaves the store unmodified. -/
def Datastore.put (s : Datastore) (k : Key) (v : Value) (idxs : List KeyIndex)
    (ttlSec : Nat) : Status × Datastore :=
  if checkPutArgs k.length v.length idxs = .Ok then
    (.Ok, { s with
      wbuf := s.wbuf ++ [{ key := k, value := v, ttlDeadlineSec := mkDeadline s.now ttlSec,
                           tomb := false, indexes := idxs }],
      keyDir := alistUpsert s.keyDir k
        { fileId := s.activeId, recIdx := s.flushed.length + s.wbuf.length,
          ttlDeadlineSec := mkDeadline s.now ttlSec },
      tagIndex := tagAddAll s.tagIndex k idxs,
      cache := cacheInsert s.cache k v })
  else (checkPutArgs k.length v.length idxs, s)

/-- Modelled from the spec: `get` — key directory lookup, TTL filter, then
serve from the write buffer when the location is past the on-disk length of
the active file, else from the value cache (bumping the entry), else by a
pread of the data file (populating the cache). -/
def Datastore.get (s : Datastore) (k : Key) : Status × Value × Datastore :=
  match alistFind s.keyDir k with
  | none => (.EntryNotFound, [], s)
  | some loc =>
    if isExpired s.now loc.ttlDeadlineSec then (.EntryNotFound, [], s)
    else if loc.fileId = s.activeId ∧ s.flushed.length ≤ loc.recIdx then
      match s.wbuf[loc.recIdx - s.flushed.length]? with
      | some r => if r.key = k ∧ r.tomb = false then (.Ok, r.value, s) else (.EntryCorrupted, [], s)
      | none => (.EntryCorrupted, [], s)
    else
      match cacheLookup s.cache k with
      | some (v, c') => (.Ok, v, { s with cache := c' })
      | none =>
        match recordAt s loc with
        | some r =>
          if r.key = k ∧ r.tomb = false then
            (.Ok, r.value, { s with cache := cacheInsert s.cache k r.value })
          else (.EntryCorrupted, [], s)
        | none => (.EntryCorrupted, [], s)

/-- Modelled from the spec: `remove` — `EntryNotFound` when the key is absent
or expired; otherwise append a tombstone record, erase the key-directory
entry and purge the cached value within the same call. Index arrays are
cleaned lazily, not here. -/
def Datastore.remove (s : Datastore) (k : Key) : Status × Datastore :=
  match alistFind s.keyDir k with
  | none => (.EntryNotFound, s)
  | some loc =>
    if isExpired s.now loc.ttlDeadlineSec then (.EntryNotFound, s)
    else
      let r : DataRec := { key := k, value := [], ttlDeadlineSec := 0, tomb := true, indexes := [] }
      (.Ok, { s with wbuf := s.wbuf ++ [r],
                     keyDir := alistErase s.keyDir k,
                     cache := cachePurge s.cache k })

/-- Modelled from the spec: validation of a query candidate — the key
directory must still resolve the key to a live, unexpired record whose
declared indexes produce every requested key part. -/
def queryValidate (s : Datastore) (parts : List Key) (k : Key) : Bool :=
  match alistFind s.keyDir k with
  | none => false
  | some loc =>
    if isExpired s.now loc.ttlDeadlineSec then false
    else
      match recordAt s loc with
      | none => false
      | some r =>
        decide (r.key = k ∧ r.tomb = false ∧
          ∀ p ∈ parts, ∃ ki ∈ r.indexes, extractPart k ki = p)

/-- Modelled from the spec: `query` — an empty part list or an empty key part
returns zero results with `Status.Ok`; otherwise the candidate array of the
first part is validated against the key directory and every requested part
(multi-part queries intersect, AND semantics). -/
def Datastore.query (s : Datastore) (parts : List Key) : Status × List Key :=
  match parts with
  | [] => (.Ok, [])
  | p0 :: _ =>
    if [] ∈ parts then (.Ok, [])
    else
      let cands := (alistFind s.tagIndex p0).getD []
      (.Ok, (cands.filter (queryValidate s parts)).dedup)

/-- Modelled from the spec: `sync` flushes the write buffer to the OS — the
buffered records become part of the on-disk active file. -/
def Datastore.sync (s : Datastore) : Datastore :=
  { s with flushed := s.flushed ++ s.wbuf, wbuf := [] }

/-- Modelled from the spec: sealing the active file
(`createNewActiveDataFile`): flush, move the file to the sealed set, allocate
the next file id and start an empty active file. -/
def Datastore.seal (s : Datastore) : Datastore :=
  { s with sealedFiles := s.sealedFiles ++ [(s.activeId, s.flushed ++ s.wbuf)],
           activeId := s.activeId + 1,
           flushed := [], wbuf := [] }

/-- Modelled from the spec: one background upkeep step on the value cache —
demote the warm tail toward the cold queue. -/
def Datastore.upkeep (s : Datastore) : Datastore :=
  { s with cache := cacheDemote s.cache }

/-- Modelled from the spec: the injected time source (`setTestTimeFunction` +
`updateNow`) — sets the store's notion of wall-clock seconds. -/
def Datastore.setTime (s : Datastore) (t : Nat) : Datastore :=
  { s with now := t }

/-- Modelled from the spec: `setConfig` validates the entire configuration
before applying any of it; on any validation failure the stored configuration
is left untouched. -/
def Datastore.setConfig (s : Datastore) (c : Config) : Status × Datastore :=
  if checkConfig c = .Ok then (.Ok, { s with config := c })
  else (checkConfig c, s)

/-- Fresh, empty, open datastore with the given config, cache capacity and
initial time (the result of `open` on an empty directory). -/
def emptyStore (cfg : Config) (cap now0 : Nat) : Datastore :=
  { sealedFiles := [], activeId := 0, flushed := [], wbuf := [],
    keyDir := [], tagIndex := [],
    cache := { hot := [], warm := [], cold := [], capacity := cap },
    config := cfg, now := now0 }

/-- Modelled from the spec: tombstone retention decision of the merge engine —
a tombstone read from selected file `fid` is preserved in the merged output
iff some sealed file with a lower file id was not included in this merge. -/
def keepTombstone (files : List (Nat × List DataRec)) (mergeSet : List Nat) (fid : Nat) : Bool :=
  decide (∃ p ∈ files, p.1 < fid ∧ p.1 ∉ mergeSet)

/-- Modelled from the spec: liveness of a data-file record — the key
directory still points at this exact location. -/
def isLiveAt (s : Datastore) (fid i : Nat) (r : DataRec) : Bool :=
  match alistFind s.keyDir r.key with
  | none => false
  | some loc => decide (loc.fileId = fid ∧ loc.recIdx = i)

/-- Modelled from the spec: per-record keep decision of the merge engine —
live records are copied, tombstones obey the retention rule. -/
def mergeKeep (s : Datastore) (mergeSet : List Nat) (fid i : Nat) (r : DataRec) : Bool :=
  if r.tomb then keepTombstone s.sealedFiles mergeSet fid else isLiveAt s fid i r

/-- Surviving records of one selected file. -/
def fileMergeOut (s : Datastore) (mergeSet : List Nat) (fid : Nat) (recs : List DataRec) : List DataRec :=
  (recs.enum.filter (fun p => mergeKeep s mergeSet fid p.1 p.2)).map (fun p => p.2)

/-- Modelled from the spec: the merged output — surviving records of the
selected sealed files, streamed in file order. -/
def mergeOutput (s : Datastore) (mergeSet : List Nat) : List DataRec :=
  ((s.sealedFiles.filter (fun p => p.1 ∈ mergeSet)).map
    (fun p => fileMergeOut s mergeSet p.1 p.2)).flatten

/-- Modelled from the spec: the merge pipeline on sealed files — write the
surviving records into a fresh data file (taking the next file id) and unlink
the selected originals. The key-directory re-pointing of step 4 is omitted
here because the claim exercising the merge closes and reopens the store,
which rebuilds the key directory from the files. -/
def Datastore.mergeFiles (s : Datastore) (mergeSet : List Nat) : Datastore :=
  { s with sealedFiles := (s.sealedFiles.filter (fun p => p.1 ∉ mergeSet))
                            ++ [(s.activeId, mergeOutput s mergeSet)],
           activeId := s.activeId + 1 }

/-- Modelled from the spec: recovery insertion of one scanned record —
newest wins, a tombstone erases the key, expired entries are skipped. -/
def recoverRec (kd : List (Key × Loc)) (now fid i : Nat) (r : DataRec) : List (Key × Loc) :=
  if r.tomb then alistErase kd r.key
  else if isExpired now r.ttlDeadlineSec then kd
  else alistUpsert kd r.key { fileId := fid, recIdx := i, ttlDeadlineSec := r.ttlDeadlineSec }

/-- Recovery scan of one data file. -/
def recoverFile (kd : List (Key × Loc)) (now : Nat) (f : Nat × List DataRec) : List (Key × Loc) :=
  f.2.enum.foldl (fun kd' p => recoverRec kd' now f.1 p.1 p.2) kd

/-- Modelled from the spec: recovery at open — scan the data files in file-id
order and rebuild the key directory, newest wins. -/
def recoverAll (files : List (Nat × List DataRec)) (now : Nat) : List (Key × Loc) :=
  files.foldl (fun kd f => recoverFile kd now f) []

/-- Rebuild the secondary index from the records seen during recovery. -/
def recoverTags (files : List (Nat × List DataRec)) : List (Key × List Key) :=
  files.foldl (fun m f => f.2.foldl (fun m' r => if r.tomb then m' else tagAddAll m' r.key r.indexes) m) []

/-- Modelled from the spec: close followed by open of the same directory —
the write buffer is flushed, the active file becomes a plain data file, and
recovery rebuilds the in-memory state; the cache starts empty. -/
def Datastore.reopen (s : Datastore) : Datastore :=
  let files := s.sealedFiles ++ [(s.activeId, s.flushed ++ s.wbuf)]
  { sealedFiles := files, activeId := s.activeId + 1, flushed := [], wbuf := [],
    keyDir := recoverAll files s.now,
    tagIndex := recoverTags files,
    cache := { hot := [], warm := [], cold := [], capacity := s.cache.capacity },
    config := s.config, now := s.now }

/-- Operations interleaved between a put and the observing get; used to state
claims about intervening activity. -/
inductive Op where
  | put (k : Key) (v : Value) (idxs : List KeyIndex) (ttlSec : Nat)
  | remove (k : Key)
  | get (k : Key)
  | sync
  | sealFile
  | upkeep
  | setTime (t : Nat)

/-- Apply one operation to the store (statuses and read-out values are
discarded; only the state transition is kept). -/
def applyOp (s : Datastore) (op : Op) : Datastore :=
  match op with
  | .put k v idxs t => (s.put k v idxs t).2
  | .remove k => (s.remove k).2
  | .get k => (s.get k).2.2
  | .sync => s.sync
  | .sealFile => s.seal
  | .upkeep => s.upkeep
  | .setTime t => s.setTime t

/-- Apply a list of operations in order. -/
def applyOps (s : Datastore) (ops : List Op) : Datastore :=
  ops.foldl applyOp s

/-- An operation is benign for key `k` when it is neither a put of `k` nor a
remove of `k` (reads, maintenance, time changes and operations on other keys
are all benign). -/
def benign (k : Key) : Op → Prop
  | .put k' _ _ _ => k' ≠ k
  | .remove k' => k' ≠ k
  | _ => True

/-- Keys of the entries of one cache queue. -/
def segKeys (l : List CEntry) : List Key :=
  l.map Prod.fst

/-- All cache entries, hot then warm then cold. -/
def allEntries (c : Cache) : List CEntry :=
  c.hot ++ c.warm ++ c.cold

/-- Value-coherence of one queue for key `k`: every entry of the queue
carrying key `k` carries value `v`. -/
def cohList (l : List CEntry) (k : Key) (v : Value) : Prop :=
  ∀ e ∈ l, e.1 = k → e.2 = v

/-- Value-coherence of the cache for key `k`. -/
def cacheCoh (c : Cache) (k : Key) (v : Value) : Prop :=
  cohList c.hot k v ∧ cohList c.warm k v ∧ cohList c.cold k v

/-- Keys of all values currently held in the cache. -/
def cacheKeys (c : Cache) : List Key :=
  segKeys (allEntries c)

/-- The cache holds at most one entry per key. -/
def cacheKeysNodup (c : Cache) : Prop :=
  (cacheKeys c).Nodup

/-- File-id sanity: every sealed file has an id below the active one. -/
def FidWf (s : Datastore) : Prop :=
  ∀ p ∈ s.sealedFiles, p.1 < s.activeId

/-- The store holds key `k` with value `v` and TTL deadline `dl`: the key
directory resolves `k` to a location whose record carries exactly `(k, v)`
live with deadline `dl`, and every cache entry for `k` carries `v`. -/
def HoldsKV (s : Datastore) (k : Key) (v : Value) (dl : Nat) : Prop :=
  (∃ loc idxs, alistFind s.keyDir k = some loc ∧ loc.ttlDeadlineSec = dl ∧
    recordAt s loc = some { key := k, value := v, ttlDeadlineSec := dl, tomb := false, indexes := idxs }) ∧
  cacheCoh s.cache k v

/-- Condition under which claim C6, as stated, predicts the status
`InconsistentKeyIndex` from `put`: an index reaching beyond the key, or more
than 64 declared indexes — the zero-size case is absent. -/
def claimC6Inconsistent (keyLen : Nat) (idxs : List KeyIndex) : Prop :=
  MaxKeyIndexQty < idxs.length ∨ ∃ ki ∈ idxs, keyLen < ki.startIdx + ki.size

instance (keyLen : Nat) (idxs : List KeyIndex) : Decidable (claimC6Inconsistent keyLen idxs) := by
  unfold claimC6Inconsistent
  infer_instance

/-- Valid working configuration used by the "Config consistency" unit test as
the base for its out-of-range and inconsistency checks. -/
def testConfig : Config :=
  { dataFileMaxBytes := 11000, mergeCyclePeriodMs := 60000, upkeepCyclePeriodMs := 1000,
    writeBufferFlushPeriodMs := 5000, upkeepKeyDirBatchSize := 100000,
    upkeepValueCacheBatchSize := 1000, valueCacheTargetMemoryLoadPercentage := 90,
    mergeTriggerDataFileFragmentationPercentage := 2,
    mergeTriggerDataFileDeadByteThreshold := 10000,
    mergeSelectDataFileFragmentationPercentage := 1,
    mergeSelectDataFileDeadByteThreshold := 9000,
    mergeSelectDataFileSmallSizeThreshold := 8000 }

section CacheLemmas

theorem length_dropLast_lt {α : Type} (l : List α) :
    l.dropLast.length = l.length - 1 := by
  simp [List.length_dropLast]

theorem cohList_of_subset {l l' : List CEntry} {k : Key} {v : Value}
    (hsub : l' ⊆ l) (h : cohList l k v) : cohList l' k v :=
  fun e he => h e (hsub he)

theorem cohList_filter {l : List CEntry} {k : Key} {v : Value} (p : CEntry → Bool)
    (h : cohList l k v) : cohList (l.filter p) k v :=
  cohList_of_subset (List.filter_sublist l).subset h

theorem cohList_dropLast {l : List CEntry} {k : Key} {v : Value}
    (h : cohList l k v) : cohList l.dropLast k v :=
  cohList_of_subset (List.dropLast_sublist l).subset h

theorem cohList_cons_self {l : List CEntry} {k : Key} {v : Value}
    (h : cohList l k v) : cohList ((k, v) :: l) k v := by
  intro e he hk
  rcases List.mem_cons.1 he with h1 | h1
  · simp [h1]
  · exact h e h1 hk

theorem cohList_cons_ne {l : List CEntry} {k k' : Key} {v v' : Value}
    (hne : k' ≠ k) (h : cohList l k v) : cohList ((k', v') :: l) k v := by
  intro e he hk
  rcases List.mem_cons.1 he with h1 | h1
  · exact absurd (by simpa [h1] using hk) hne
  · exact h e h1 hk

theorem segFind_mem {l : List CEntry} {k : Key} {v' : Value}
    (h : segFind l k = some v') : (k, v') ∈ l := by
  induction l with
  | nil => simp [segFind] at h
  | cons e t ih =>
    by_cases hk : e.1 = k
    · simp only [segFind, if_pos hk] at h
      cases h
      exact List.mem_cons.2 (Or.inl (by cases e; simp_all))
    · simp only [segFind, if_neg hk] at h
      exact List.mem_cons.2 (Or.inr (ih h))

theorem segFind_isSome_of_mem {l : List CEntry} {k : Key}
    (h : k ∈ segKeys l) : ∃ v', segFind l k = some v' := by
  induction l with
  | nil => simp [segKeys] at h
  | cons e t ih =>
    by_cases hk : e.1 = k
    · exact ⟨e.2, by simp [segFind, hk]⟩
    · simp only [segKeys, List.map_cons, List.mem_cons] at h
      rcases h with h | h
      · exact absurd h.symm hk
      · exact (ih h).imp (fun v' hv => by simpa [segFind, hk] using hv)

theorem cacheFindVal_mem {c : Cache} {k : Key} {v' : Value}
    (h : cacheFindVal c k = some v') :
    (k, v') ∈ c.hot ∨ (k, v') ∈ c.warm ∨ (k, v') ∈ c.cold := by
  unfold cacheFindVal at h
  rcases hh : segFind c.hot k with _ | vh
  · rcases hw : segFind c.warm k with _ | vw
    · rw [hh, hw] at h
      exact Or.inr (Or.inr (segFind_mem h))
    · rw [hh, hw] at h
      cases h
      exact Or.inr (Or.inl (segFind_mem hw))
  · rw [hh] at h
    cases h
    exact Or.inl (segFind_mem hh)

theorem cacheFindVal_coh {c : Cache} {k : Key} {v v' : Value}
    (hcoh : cacheCoh c k v) (h : cacheFindVal c k = some v') : v' = v := by
  rcases cacheFindVal_mem h with h1 | h1 | h1
  · exact hcoh.1 _ h1 rfl
  · exact hcoh.2.1 _ h1 rfl
  · exact hcoh.2.2 _ h1 rfl

theorem cacheFindVal_of_warm {c : Cache} {k : Key} {v : Value}
    (hcoh : cacheCoh c k v) (h : k ∈ segKeys c.warm) : cacheFindVal c k = some v := by
  unfold cacheFindVal
  rcases hh : segFind c.hot k with _ | vh
  · rcases segFind_isSome_of_mem h with ⟨vw, hw⟩
    simp only [hh, hw]
    exact congrArg some (hcoh.2.1 _ (segFind_mem hw) rfl)
  · simp only [hh]
    exact congrArg some (hcoh.1 _ (segFind_mem hh) rfl)

theorem getLast?_mem {α : Type} {l : List α} {a : α} (h : l.getLast? = some a) : a ∈ l := by
  induction l with
  | nil => simp at h
  | cons x t ih =>
    rcases t with _ | ⟨y, t2⟩
    · simp_all
    · simp only [List.getLast?_cons_cons] at h
      exact List.mem_cons_of_mem _ (ih h)

theorem cohList_cons {l : List CEntry} {k : Key} {v : Value} {e : CEntry}
    (he : e.1 = k → e.2 = v) (h : cohList l k v) : cohList (e :: l) k v := by
  intro e' he' hk
  rcases List.mem_cons.1 he' with h1 | h1
  · exact h1 ▸ he (h1 ▸ hk)
  · exact h e' h1 hk

theorem cohList_eraseKey_self (l : List CEntry) (k : Key) (v : Value) :
    cohList (eraseKey l k) k v := by
  intro e he hk
  have := List.of_mem_filter he
  simp [hk] at this

theorem evictOne_capacity (c : Cache) : (evictOne c).capacity = c.capacity := by
  unfold evictOne
  split_ifs <;> rfl

theorem evictOne_coh {c : Cache} {k : Key} {v : Value} (h : cacheCoh c k v) :
    cacheCoh (evictOne c) k v := by
  unfold evictOne
  split_ifs <;>
    exact ⟨by first | exact h.1 | exact cohList_dropLast h.1,
           by first | exact h.2.1 | exact cohList_dropLast h.2.1,
           by first | exact h.2.2 | exact cohList_dropLast h.2.2⟩

theorem evictLoop_coh {k : Key} {v : Value} :
    ∀ (n : Nat) (c : Cache), cacheCoh c k v → cacheCoh (evictLoop c n) k v := by
  intro n
  induction n with
  | zero => intro c h; exact h
  | succ m ih =>
    intro c h
    unfold evictLoop
    split_ifs with hle
    · exact h
    · exact ih _ (evictOne_coh h)

theorem evictLoop_capacity : ∀ (n : Nat) (c : Cache), (evictLoop c n).capacity = c.capacity := by
  intro n
  induction n with
  | zero => intro c; rfl
  | succ m ih =>
    intro c
    unfold evictLoop
    split_ifs with hle
    · rfl
    · rw [ih, evictOne_capacity]

theorem evictLoop_of_le {c : Cache} {n : Nat} (h : cacheSize c ≤ c.capacity) :
    evictLoop c n = c := by
  cases n with
  | zero => rfl
  | succ m => unfold evictLoop; rw [if_pos h]

theorem evictOne_warm {c : Cache} (h : c.cold ≠ [] ∨ c.hot ≠ []) :
    (evictOne c).warm = c.warm := by
  unfold evictOne
  rcases h with h | h
  · rw [if_pos h]
  · split_ifs <;> rfl

theorem evictOne_size {c : Cache} (h : 0 < cacheSize c) :
    cacheSize (evictOne c) = cacheSize c - 1 := by
  unfold evictOne cacheSize
  split_ifs with h1 h2
  · have : c.cold.length ≠ 0 := by simpa [List.length_eq_zero] using h1
    simp only [List.length_dropLast]
    omega
  · have : c.hot.length ≠ 0 := by simpa [List.length_eq_zero] using h2
    simp only [List.length_dropLast]
    omega
  · have hc : c.cold.length = 0 := by simpa [List.length_eq_zero] using h1
    have hh : c.hot.length = 0 := by simpa [List.length_eq_zero] using h2
    have hw : c.warm.length ≠ 0 := by
      unfold cacheSize at h
      omega
    simp only [List.length_dropLast]
    omega

theorem cacheInsert_coh_self (c : Cache) (k : Key) (v : Value) :
    cacheCoh (cacheInsert c k v) k v := by
  refine evictLoop_coh _ _ ?_
  exact ⟨cohList_cons (fun _ => rfl) (cohList_eraseKey_self _ _ _),
         cohList_eraseKey_self _ _ _, cohList_eraseKey_self _ _ _⟩

theorem cacheInsert_coh_ne {c : Cache} {k u : Key} {v w : Value}
    (hne : u ≠ k) (h : cacheCoh c k v) : cacheCoh (cacheInsert c u w) k v := by
  refine evictLoop_coh _ _ ?_
  exact ⟨cohList_cons (fun hu => absurd hu hne) (cohList_filter _ h.1),
         cohList_filter _ h.2.1, cohList_filter _ h.2.2⟩

theorem cachePurge_coh {c : Cache} {k u : Key} {v : Value}
    (h : cacheCoh c k v) : cacheCoh (cachePurge c u) k v :=
  ⟨cohList_filter _ h.1, cohList_filter _ h.2.1, cohList_filter _ h.2.2⟩

theorem cacheDemote_coh {c : Cache} {k : Key} {v : Value}
    (h : cacheCoh c k v) : cacheCoh (cacheDemote c) k v := by
  unfold cacheDemote
  rcases hl : c.warm.getLast? with _ | e
  · exact h
  · exact ⟨h.1, cohList_dropLast h.2.1,
           cohList_cons (fun hk => h.2.1 e (getLast?_mem hl) hk) h.2.2⟩

theorem cacheLookup_none_of_ne {c : Cache} {k : Key} (h : cacheFindVal c k = none) :
    cacheLookup c k = none := by
  unfold cacheLookup
  rw [h]

theorem cacheLookup_some {c : Cache} {k : Key} {v' : Value} {c' : Cache}
    (h : cacheLookup c k = some (v', c')) :
    cacheFindVal c k = some v' ∧
    c' = { c with hot := eraseKey c.hot k,
                  warm := (k, v') :: eraseKey c.warm k,
                  cold := eraseKey c.cold k } := by
  unfold cacheLookup at h
  rcases hf : cacheFindVal c k with _ | w
  · rw [hf] at h; cases h
  · rw [hf] at h
    cases h
    exact ⟨rfl, rfl⟩

theorem cacheLookup_coh {c : Cache} {k u : Key} {v v' : Value} {c' : Cache}
    (hcoh : cacheCoh c k v) (h : cacheLookup c u = some (v', c')) :
    cacheCoh c' k v := by
  rcases cacheLookup_some h with ⟨hf, rfl⟩
  by_cases hu : u = k
  · subst hu
    have : v' = v := cacheFindVal_coh hcoh hf
    exact ⟨cohList_filter _ hcoh.1,
           cohList_cons (fun _ => this) (cohList_filter _ hcoh.2.1),
           cohList_filter _ hcoh.2.2⟩
  · exact ⟨cohList_filter _ hcoh.1,
           cohList_cons (fun hk => absurd hk hu) (cohList_filter _ hcoh.2.1),
           cohList_filter _ hcoh.2.2⟩

theorem mem_segKeys_iff {l : List CEntry} {k : Key} :
    k ∈ segKeys l ↔ ∃ e ∈ l, e.1 = k := by
  simp [segKeys]

theorem mem_segKeys_eraseKey {l : List CEntry} {k u : Key} (hne : u ≠ k)
    (h : k ∈ segKeys l) : k ∈ segKeys (eraseKey l u) := by
  rcases mem_segKeys_iff.1 h with ⟨e, he, hek⟩
  refine mem_segKeys_iff.2 ⟨e, ?_, hek⟩
  refine List.mem_filter.2 ⟨he, ?_⟩
  have hku : ¬ k = u := fun h' => hne h'.symm
  simp [hek, hku]

theorem cachePushHot_size_le (c : Cache) (k : Key) (v : Value) :
    cacheSize (cachePushHot c k v) ≤ cacheSize c + 1 := by
  have h1 := List.length_filter_le (fun e : CEntry => decide (e.1 ≠ k)) c.hot
  have h2 := List.length_filter_le (fun e : CEntry => decide (e.1 ≠ k)) c.warm
  have h3 := List.length_filter_le (fun e : CEntry => decide (e.1 ≠ k)) c.cold
  simp only [cacheSize, cachePushHot, eraseKey, List.length_cons]
  omega

theorem cacheInsert_spec {c : Cache} (u : Key) (w : Value)
    (hsz : cacheSize c ≤ c.capacity) :
    (cacheInsert c u w).warm = eraseKey c.warm u ∧
    cacheSize (cacheInsert c u w) ≤ c.capacity ∧
    (cacheInsert c u w).capacity = c.capacity := by
  have hcap1 : (cachePushHot c u w).capacity = c.capacity := rfl
  have hwarm1 : (cachePushHot c u w).warm = eraseKey c.warm u := rfl
  have hsz1 : cacheSize (cachePushHot c u w) ≤ cacheSize c + 1 :=
    cachePushHot_size_le c u w
  by_cases hle : cacheSize (cachePushHot c u w) ≤ c.capacity
  · have : cacheInsert c u w = cachePushHot c u w := by
      unfold cacheInsert
      exact evictLoop_of_le (by rw [hcap1]; exact hle)
    rw [this, hcap1]
    exact ⟨hwarm1, hle, rfl⟩
  · have hsz1eq : cacheSize (cachePushHot c u w) = c.capacity + 1 := by omega
    have hhot1 : (cachePushHot c u w).hot ≠ [] := by
      simp [cachePushHot]
    have hone : cacheInsert c u w = evictOne (cachePushHot c u w) := by
      unfold cacheInsert
      rw [hsz1eq]
      unfold evictLoop
      rw [if_neg (by omega)]
      refine evictLoop_of_le ?_
      rw [evictOne_size (by omega), evictOne_capacity, hcap1, hsz1eq]
      omega
    constructor
    · rw [hone, evictOne_warm (Or.inr hhot1), hwarm1]
    constructor
    · rw [hone, evictOne_size (by omega), hsz1eq]
      omega
    · rw [hone, evictOne_capacity, hcap1]

/-- Scan resistance: unrelated inserts never disturb a warm-resident key. -/
theorem scan_preserves {k : Key} {v : Value} :
    ∀ (us : List (Key × Value)) (c : Cache),
      cacheSize c ≤ c.capacity → cacheCoh c k v → k ∈ segKeys c.warm →
      (∀ u ∈ us, u.1 ≠ k) →
      cacheSize (us.foldl (fun c' e => cacheInsert c' e.1 e.2) c) ≤
        (us.foldl (fun c' e => cacheInsert c' e.1 e.2) c).capacity ∧
      cacheCoh (us.foldl (fun c' e => cacheInsert c' e.1 e.2) c) k v ∧
      k ∈ segKeys (us.foldl (fun c' e => cacheInsert c' e.1 e.2) c).warm := by
  intro us
  induction us with
  | nil =>
    intro c h1 h2 h3 _
    exact ⟨h1, h2, h3⟩
  | cons u t ih =>
    intro c h1 h2 h3 h4
    have hu : u.1 ≠ k := h4 u (List.mem_cons_self u t)
    rcases cacheInsert_spec u.1 u.2 h1 with ⟨hw, hs, hc⟩
    simp only [List.foldl_cons]
    refine ih _ (by rw [hc]; exact hs) (cacheInsert_coh_ne hu h2) ?_
      (fun x hx => h4 x (List.mem_cons_of_mem u hx))
    rw [hw]
    exact mem_segKeys_eraseKey hu h3

theorem segKeys_eraseKey (l : List CEntry) (k : Key) :
    segKeys (eraseKey l k) = (segKeys l).filter (fun x => x ≠ k) := by
  unfold segKeys eraseKey
  rw [List.filter_map]
  rfl

theorem segKeys_append (l1 l2 : List CEntry) :
    segKeys (l1 ++ l2) = segKeys l1 ++ segKeys l2 := by
  simp [segKeys]

theorem segKeys_cons (e : CEntry) (l : List CEntry) :
    segKeys (e :: l) = e.1 :: segKeys l := rfl

theorem cacheSize_eq_keys_length (c : Cache) : cacheSize c = (cacheKeys c).length := by
  simp only [cacheSize, cacheKeys, segKeys, allEntries, List.length_map, List.length_append]

theorem cacheKeys_purge (c : Cache) (k : Key) :
    cacheKeys (cachePurge c k) = (cacheKeys c).filter (fun x => x ≠ k) := by
  simp only [cacheKeys, allEntries, cachePurge, segKeys_append, segKeys_eraseKey,
    List.filter_append]

theorem cacheKeys_pushHot (c : Cache) (k : Key) (v : Value) :
    cacheKeys (cachePushHot c k v) = k :: (cacheKeys c).filter (fun x => x ≠ k) := by
  simp only [cacheKeys, allEntries, cachePushHot, segKeys_append, segKeys_eraseKey,
    segKeys_cons, List.filter_append, List.cons_append, List.append_assoc]

theorem eraseKey_of_not_mem {l : List CEntry} {k : Key} (h : k ∉ segKeys l) :
    eraseKey l k = l := by
  refine List.filter_eq_self.2 (fun e he => ?_)
  have : e.1 ≠ k := fun hk => h (mem_segKeys_iff.2 ⟨e, he, hk⟩)
  simp [this]

theorem filter_ne_of_not_mem {K : List Key} {k : Key} (h : k ∉ K) :
    K.filter (fun x => x ≠ k) = K := by
  refine List.filter_eq_self.2 (fun x hx => ?_)
  have : x ≠ k := fun hk => h (hk ▸ hx)
  simp [this]

theorem length_filter_ne_of_nodup {K : List Key} {k : Key} (hd : K.Nodup) (hm : k ∈ K) :
    (K.filter (fun x => x ≠ k)).length = K.length - 1 := by
  induction K with
  | nil => simp at hm
  | cons x t ih =>
    rcases List.nodup_cons.1 hd with ⟨hx, ht⟩
    by_cases hxk : x = k
    · subst hxk
      rw [List.filter_cons_of_neg (by simp), filter_ne_of_not_mem hx]
      simp
    · have hmt : k ∈ t := by
        rcases List.mem_cons.1 hm with h | h
        · exact absurd h.symm hxk
        · exact h
      have hlen : 1 ≤ t.length := List.length_pos.2 (List.ne_nil_of_mem hmt)
      rw [List.filter_cons_of_pos (by simp [hxk])]
      simp only [List.length_cons]
      rw [ih ht hmt]
      omega

theorem cacheKeysNodup_pushHot {c : Cache} (hd : cacheKeysNodup c) (k : Key) (v : Value) :
    cacheKeysNodup (cachePushHot c k v) := by
  unfold cacheKeysNodup
  rw [cacheKeys_pushHot]
  refine List.nodup_cons.2 ⟨?_, hd.filter _⟩
  intro hk
  have := List.of_mem_filter hk
  simp at this

theorem allEntries_evictOne_sublist (c : Cache) :
    (allEntries (evictOne c)).Sublist (allEntries c) := by
  unfold evictOne allEntries
  split_ifs <;> dsimp only <;>
    first
      | exact ((List.Sublist.refl _).append (List.Sublist.refl _)).append (List.dropLast_sublist _)
      | exact ((List.dropLast_sublist _).append (List.Sublist.refl _)).append (List.Sublist.refl _)
      | exact ((List.Sublist.refl _).append (List.dropLast_sublist _)).append (List.Sublist.refl _)

theorem cacheKeysNodup_evictOne {c : Cache} (hd : cacheKeysNodup c) :
    cacheKeysNodup (evictOne c) :=
  hd.sublist ((allEntries_evictOne_sublist c).map Prod.fst)

theorem cacheKeysNodup_evictLoop {c : Cache} (hd : cacheKeysNodup c) (n : Nat) :
    cacheKeysNodup (evictLoop c n) := by
  induction n generalizing c with
  | zero => exact hd
  | succ m ih =>
    unfold evictLoop
    split_ifs
    · exact hd
    · exact ih (cacheKeysNodup_evictOne hd)

theorem cacheKeysNodup_insert {c : Cache} (hd : cacheKeysNodup c) (k : Key) (v : Value) :
    cacheKeysNodup (cacheInsert c k v) :=
  cacheKeysNodup_evictLoop (cacheKeysNodup_pushHot hd k v) _

theorem cacheKeysNodup_purge {c : Cache} (hd : cacheKeysNodup c) (k : Key) :
    cacheKeysNodup (cachePurge c k) := by
  unfold cacheKeysNodup
  rw [cacheKeys_purge]
  exact hd.filter _

theorem dropLast_append_of_getLast? {α : Type} {l : List α} {a : α}
    (h : l.getLast? = some a) : l.dropLast ++ [a] = l := by
  induction l with
  | nil => simp at h
  | cons x t ih =>
    rcases t with _ | ⟨y, t2⟩
    · simp_all
    · simp only [List.getLast?_cons_cons] at h
      show x :: ((y :: t2).dropLast ++ [a]) = x :: (y :: t2)
      rw [ih h]

theorem allEntries_demote (c : Cache) : ∃ K : List Key,
    segKeys (allEntries (cacheDemote c)) = K ∧ segKeys (allEntries c) = K := by
  unfold cacheDemote
  rcases hl : c.warm.getLast? with _ | e
  · exact ⟨_, rfl, rfl⟩
  · refine ⟨_, rfl, ?_⟩
    have hw := dropLast_append_of_getLast? hl
    simp only [allEntries]
    rw [← hw]
    simp [segKeys_append, segKeys]

theorem cacheKeysNodup_demote {c : Cache} (hd : cacheKeysNodup c) :
    cacheKeysNodup (cacheDemote c) := by
  rcases allEntries_demote c with ⟨K, h1, h2⟩
  unfold cacheKeysNodup cacheKeys
  unfold cacheKeysNodup cacheKeys at hd
  rw [h1, ← h2]
  exact hd

theorem cacheKeysNodup_lookup {c : Cache} {k : Key} {v' : Value} {c' : Cache}
    (hd : cacheKeysNodup c) (h : cacheLookup c k = some (v', c')) :
    cacheKeysNodup c' := by
  rcases cacheLookup_some h with ⟨hf, rfl⟩
  unfold cacheKeysNodup cacheKeys allEntries
  simp only [segKeys_append, segKeys_eraseKey, segKeys_cons, List.cons_append,
    List.append_assoc]
  refine List.perm_middle.nodup_iff.2 ?_
  refine List.nodup_cons.2 ⟨?_, ?_⟩
  · intro hk
    rcases List.mem_append.1 hk with h1 | h1
    · have := List.of_mem_filter h1
      simp at this
    · rcases List.mem_append.1 h1 with h2 | h2 <;>
      · have := List.of_mem_filter h2
        simp at this
  · have hpn : cacheKeysNodup (cachePurge c k) := cacheKeysNodup_purge hd k
    unfold cacheKeysNodup at hpn
    rw [cacheKeys_purge] at hpn
    unfold cacheKeys allEntries at hpn
    simpa [segKeys_append, List.filter_append, List.append_assoc] using hpn

theorem cacheSize_purge_of_mem {c : Cache} {k : Key}
    (hd : cacheKeysNodup c) (hm : k ∈ cacheKeys c) :
    cacheSize (cachePurge c k) = cacheSize c - 1 := by
  rw [cacheSize_eq_keys_length, cacheSize_eq_keys_length, cacheKeys_purge]
  exact length_filter_ne_of_nodup hd hm

theorem cachePurge_not_mem_keys (c : Cache) (k : Key) :
    k ∉ cacheKeys (cachePurge c k) := by
  rw [cacheKeys_purge]
  intro hk
  have := List.of_mem_filter hk
  simp at this

theorem cacheSize_insert_fresh {c : Cache} {k : Key} (v : Value)
    (hm : k ∉ cacheKeys c) (hcap : cacheSize c < c.capacity) :
    cacheSize (cacheInsert c k v) = cacheSize c + 1 := by
  have hpush : cacheSize (cachePushHot c k v) = cacheSize c + 1 := by
    rw [cacheSize_eq_keys_length, cacheSize_eq_keys_length, cacheKeys_pushHot,
      filter_ne_of_not_mem hm]
    simp
  unfold cacheInsert
  rw [evictLoop_of_le (by rw [hpush]; exact hcap), hpush]

theorem cacheSize_insert_mem {c : Cache} {k : Key} (v : Value)
    (hd : cacheKeysNodup c) (hm : k ∈ cacheKeys c) (hsz : cacheSize c ≤ c.capacity) :
    cacheSize (cacheInsert c k v) = cacheSize c := by
  have hpos : 1 ≤ (cacheKeys c).length :=
    List.length_pos.2 (List.ne_nil_of_mem hm)
  have hpush : cacheSize (cachePushHot c k v) = cacheSize c := by
    rw [cacheSize_eq_keys_length, cacheSize_eq_keys_length, cacheKeys_pushHot,
      List.length_cons, length_filter_ne_of_nodup hd hm]
    omega
  unfold cacheInsert
  rw [evictLoop_of_le (by rw [hpush]; exact hsz), hpush]

end CacheLemmas

section AlistLemmas

variable {α β : Type} [DecidableEq α]

theorem alistFind_upsert_self (m : List (α × β)) (k : α) (b : β) :
    alistFind (alistUpsert m k b) k = some b := by
  induction m with
  | nil => simp [alistUpsert, alistFind]
  | cons p t ih =>
    by_cases hp : p.1 = k
    · rcases p with ⟨k', b'⟩
      simp only [alistUpsert]
      rw [if_pos hp]
      simp [alistFind]
    · rcases p with ⟨k', b'⟩
      simp only [alistUpsert]
      rw [if_neg hp]
      simp only [alistFind]
      rw [if_neg hp]
      exact ih

theorem alistFind_upsert_ne {k k' : α} (m : List (α × β)) (b : β) (hne : k' ≠ k) :
    alistFind (alistUpsert m k' b) k = alistFind m k := by
  induction m with
  | nil => simp [alistUpsert, alistFind, if_neg hne]
  | cons p t ih =>
    rcases p with ⟨k0, b0⟩
    by_cases hp : k0 = k'
    · simp only [alistUpsert]
      rw [if_pos hp]
      simp only [alistFind]
      rw [if_neg hne, if_neg (hp ▸ hne)]
    · simp only [alistUpsert]
      rw [if_neg hp]
      simp only [alistFind]
      by_cases h0 : k0 = k
      · rw [if_pos h0, if_pos h0]
      · rw [if_neg h0, if_neg h0]
        exact ih

theorem alistFind_erase_self (m : List (α × β)) (k : α) :
    alistFind (alistErase m k) k = none := by
  induction m with
  | nil => rfl
  | cons p t ih =>
    by_cases hp : p.1 = k
    · simp only [alistErase]
      rw [if_pos hp]
      exact ih
    · simp only [alistErase]
      rw [if_neg hp]
      simp only [alistFind]
      rw [if_neg hp]
      exact ih

theorem alistFind_erase_ne {k k' : α} (m : List (α × β)) (hne : k' ≠ k) :
    alistFind (alistErase m k') k = alistFind m k := by
  induction m with
  | nil => rfl
  | cons p t ih =>
    by_cases hp : p.1 = k'
    · have hpk : ¬ p.1 = k := fun h => hne (hp ▸ h)
      simp only [alistErase]
      rw [if_pos hp, ih]
      simp only [alistFind]
      rw [if_neg hpk]
    · simp only [alistErase]
      rw [if_neg hp]
      simp only [alistFind]
      by_cases h0 : p.1 = k
      · rw [if_pos h0, if_pos h0]
      · rw [if_neg h0, if_neg h0]
        exact ih

theorem alistFind_append (m1 m2 : List (α × β)) (k : α) :
    alistFind (m1 ++ m2) k =
      (match alistFind m1 k with
       | some b => some b
       | none => alistFind m2 k) := by
  induction m1 with
  | nil => rfl
  | cons p t ih =>
    by_cases hp : p.1 = k
    · rcases p with ⟨k0, b0⟩
      simp only [List.cons_append, alistFind]
      rw [if_pos hp, if_pos hp]
    · rcases p with ⟨k0, b0⟩
      simp only [List.cons_append, alistFind]
      rw [if_neg hp, if_neg hp]
      exact ih

theorem alistFind_eq_none_of_forall {m : List (α × β)} {k : α}
    (h : ∀ p ∈ m, p.1 ≠ k) : alistFind m k = none := by
  induction m with
  | nil => rfl
  | cons p t ih =>
    simp only [alistFind]
    rw [if_neg (h p (List.mem_cons_self p t))]
    exact ih (fun q hq => h q (List.mem_cons_of_mem p hq))

end AlistLemmas

section StoreLemmas

theorem getElem?_some_lt {α : Type} {l : List α} {n : Nat} {x : α}
    (h : l[n]? = some x) : n < l.length := by
  by_contra hn
  push_neg at hn
  rw [List.getElem?_eq_none hn] at h
  cases h

theorem recordAt_extend {s s' : Datastore} {loc : Loc} {r0 r : DataRec}
    (hsf : s'.sealedFiles = s.sealedFiles) (ha : s'.activeId = s.activeId)
    (hf : s'.flushed = s.flushed) (hw : s'.wbuf = s.wbuf ++ [r])
    (h : recordAt s loc = some r0) : recordAt s' loc = some r0 := by
  unfold recordAt lookupFile at h ⊢
  rw [hsf, ha, hf, hw]
  by_cases hfid : loc.fileId = s.activeId
  · rw [if_pos hfid] at h ⊢
    rw [← List.append_assoc]
    rw [List.getElem?_append_left (getElem?_some_lt h)]
    exact h
  · rw [if_neg hfid] at h ⊢
    exact h

theorem recordAt_sync {s : Datastore} {loc : Loc} {r0 : DataRec}
    (h : recordAt s loc = some r0) : recordAt s.sync loc = some r0 := by
  unfold recordAt lookupFile at h
  unfold recordAt lookupFile Datastore.sync
  by_cases hfid : loc.fileId = s.activeId
  · simp only [if_pos hfid] at h ⊢
    rw [List.append_nil]
    exact h
  · simp only [if_neg hfid] at h ⊢
    exact h

theorem fidwf_seal {s : Datastore} (hwf : FidWf s) : FidWf s.seal := by
  intro p hp
  unfold Datastore.seal at hp
  simp only at hp
  rcases List.mem_append.1 hp with h1 | h1
  · exact Nat.lt_succ_of_lt (hwf p h1)
  · rcases List.mem_singleton.1 h1 with rfl
    exact Nat.lt_succ_self _

theorem alistFind_mem {α β : Type} [DecidableEq α] {m : List (α × β)} {k : α} {b : β}
    (h : alistFind m k = some b) : (k, b) ∈ m := by
  induction m with
  | nil => cases h
  | cons p t ih =>
    by_cases hp : p.1 = k
    · simp only [alistFind] at h
      rw [if_pos hp] at h
      cases h
      rcases p with ⟨a, b'⟩
      simp only at hp
      subst hp
      exact List.mem_cons_self _ _
    · simp only [alistFind] at h
      rw [if_neg hp] at h
      exact List.mem_cons_of_mem _ (ih h)

theorem recordAt_seal {s : Datastore} (hwf : FidWf s) {loc : Loc} {r0 : DataRec}
    (h : recordAt s loc = some r0) : recordAt s.seal loc = some r0 := by
  unfold recordAt lookupFile at h
  unfold recordAt lookupFile Datastore.seal
  simp only
  by_cases hfid : loc.fileId = s.activeId
  · rw [if_pos hfid] at h
    rw [if_neg (by omega)]
    rw [alistFind_append]
    rw [alistFind_eq_none_of_forall
      (fun p hp => by rw [hfid]; exact Nat.ne_of_lt (hwf p hp))]
    simp only [alistFind]
    rw [hfid, if_pos rfl]
    exact h
  · rw [if_neg hfid] at h
    revert h
    rcases hsf : alistFind s.sealedFiles loc.fileId with _ | recs <;> intro h
    · simp at h
    · have hlt : loc.fileId < s.activeId := hwf _ (alistFind_mem hsf)
      rw [if_neg (by omega)]
      rw [alistFind_append, hsf]
      exact h

theorem get_frame (s : Datastore) (k'' : Key) :
    (s.get k'').2.2.sealedFiles = s.sealedFiles ∧ (s.get k'').2.2.activeId = s.activeId ∧
    (s.get k'').2.2.flushed = s.flushed ∧ (s.get k'').2.2.wbuf = s.wbuf ∧
    (s.get k'').2.2.keyDir = s.keyDir ∧ (s.get k'').2.2.now = s.now := by
  unfold Datastore.get
  repeat' split
  all_goals simp

theorem get_coh {s : Datastore} {k : Key} {v : Value} {dl : Nat} (k'' : Key)
    (h : HoldsKV s k v dl) : cacheCoh (s.get k'').2.2.cache k v := by
  rcases h with ⟨⟨loc0, idxs0, hfind0, hdl0, hrec0⟩, hcoh⟩
  unfold Datastore.get
  rcases hfind : alistFind s.keyDir k'' with _ | loc
  · exact hcoh
  · simp only
    split
    · exact hcoh
    · split
      · split
        · split
          · exact hcoh
          · exact hcoh
        · exact hcoh
      · rcases hlk : cacheLookup s.cache k'' with _ | p
        · simp only
          rcases hra : recordAt s loc with _ | r
          · exact hcoh
          · simp only
            split
            · rename_i hguard
              by_cases hk : k'' = k
              · subst hk
                rw [hfind0] at hfind
                cases hfind
                rw [hrec0] at hra
                cases hra
                exact cacheInsert_coh_self _ _ _
              · exact cacheInsert_coh_ne (fun hh => hk hh) hcoh
            · exact hcoh
        · rcases p with ⟨v', c'⟩
          exact cacheLookup_coh hcoh hlk

theorem recordAt_congr {s s' : Datastore} (loc : Loc)
    (hsf : s'.sealedFiles = s.sealedFiles) (ha : s'.activeId = s.activeId)
    (hf : s'.flushed = s.flushed) (hw : s'.wbuf = s.wbuf) :
    recordAt s' loc = recordAt s loc := by
  unfold recordAt lookupFile
  rw [hsf, ha, hf, hw]

theorem preserve_applyOp {s : Datastore} {k : Key} {v : Value} {dl : Nat} {op : Op}
    (hwf : FidWf s) (h : HoldsKV s k v dl) (hb : benign k op) :
    FidWf (applyOp s op) ∧ HoldsKV (applyOp s op) k v dl := by
  rcases h with ⟨⟨loc, idxs0, hfind, hdl, hrec⟩, hcoh⟩
  cases op with
  | put k' v' idxs ttl =>
    have hne : k' ≠ k := hb
    simp only [applyOp, Datastore.put]
    split
    · refine ⟨fun p hp => hwf p hp, ⟨loc, idxs0, ?_, hdl, ?_⟩, ?_⟩
      · rw [alistFind_upsert_ne _ _ hne]
        exact hfind
      · exact recordAt_extend (s := s) rfl rfl rfl rfl hrec
      · exact cacheInsert_coh_ne hne hcoh
    · exact ⟨hwf, ⟨loc, idxs0, hfind, hdl, hrec⟩, hcoh⟩
  | remove k' =>
    have hne : k' ≠ k := hb
    simp only [applyOp, Datastore.remove]
    rcases hf' : alistFind s.keyDir k' with _ | loc'
    · exact ⟨hwf, ⟨loc, idxs0, hfind, hdl, hrec⟩, hcoh⟩
    · simp only
      split
      · exact ⟨hwf, ⟨loc, idxs0, hfind, hdl, hrec⟩, hcoh⟩
      · refine ⟨fun p hp => hwf p hp, ⟨loc, idxs0, ?_, hdl, ?_⟩, ?_⟩
        · rw [alistFind_erase_ne _ hne]
          exact hfind
        · exact recordAt_extend (s := s) rfl rfl rfl rfl hrec
        · exact cachePurge_coh hcoh
  | get k'' =>
    simp only [applyOp]
    rcases get_frame s k'' with ⟨h1, h2, h3, h4, h5, _⟩
    refine ⟨?_, ⟨loc, idxs0, ?_, hdl, ?_⟩, get_coh k'' ⟨⟨loc, idxs0, hfind, hdl, hrec⟩, hcoh⟩⟩
    · intro p hp
      rw [h1] at hp
      rw [h2]
      exact hwf p hp
    · rw [h5]
      exact hfind
    · rw [recordAt_congr loc h1 h2 h3 h4]
      exact hrec
  | sync =>
    exact ⟨hwf, ⟨loc, idxs0, hfind, hdl, recordAt_sync hrec⟩, hcoh⟩
  | sealFile =>
    exact ⟨fidwf_seal hwf, ⟨loc, idxs0, hfind, hdl, recordAt_seal hwf hrec⟩, hcoh⟩
  | upkeep =>
    exact ⟨hwf, ⟨loc, idxs0, hfind, hdl, hrec⟩, cacheDemote_coh hcoh⟩
  | setTime t =>
    exact ⟨hwf, ⟨loc, idxs0, hfind, hdl, hrec⟩, hcoh⟩

theorem preserve_applyOps {s : Datastore} {k : Key} {v : Value} {dl : Nat} {ops : List Op}
    (hwf : FidWf s) (h : HoldsKV s k v dl) (hb : ∀ op ∈ ops, benign k op) :
    FidWf (applyOps s ops) ∧ HoldsKV (applyOps s ops) k v dl := by
  induction ops generalizing s with
  | nil => exact ⟨hwf, h⟩
  | cons op t ih =>
    have hstep := preserve_applyOp hwf h (hb op (List.mem_cons_self op t))
    exact ih hstep.1 hstep.2 (fun o ho => hb o (List.mem_cons_of_mem op ho))

theorem put_establishes {s : Datastore} {k : Key} {v : Value} {idxs : List KeyIndex}
    (ttl : Nat) (hwf : FidWf s)
    (hargs : checkPutArgs k.length v.length idxs = .Ok) :
    (s.put k v idxs ttl).1 = .Ok ∧ FidWf (s.put k v idxs ttl).2 ∧
    HoldsKV (s.put k v idxs ttl).2 k v (mkDeadline s.now ttl) := by
  unfold Datastore.put
  rw [if_pos hargs]
  refine ⟨rfl, fun p hp => hwf p hp, ⟨⟨s.activeId, s.flushed.length + s.wbuf.length,
    mkDeadline s.now ttl⟩, idxs, ?_, rfl, ?_⟩, cacheInsert_coh_self _ _ _⟩
  · exact alistFind_upsert_self _ _ _
  · unfold recordAt lookupFile
    simp only
    rw [if_pos trivial, ← List.append_assoc]
    rw [List.getElem?_append_right (by rw [List.length_append])]
    rw [List.length_append]
    simp

theorem holds_get_ok {s : Datastore} {k : Key} {v : Value} {dl : Nat}
    (h : HoldsKV s k v dl) (hexp : isExpired s.now dl = false) :
    (s.get k).1 = .Ok ∧ (s.get k).2.1 = v := by
  rcases h with ⟨⟨loc, idxs0, hfind, hdl, hrec⟩, hcoh⟩
  unfold Datastore.get
  rw [hfind]
  simp only
  rw [hdl, hexp]
  simp only [Bool.false_eq_true, if_false]
  by_cases hb : loc.fileId = s.activeId ∧ s.flushed.length ≤ loc.recIdx
  · rw [if_pos hb]
    unfold recordAt lookupFile at hrec
    rw [if_pos hb.1] at hrec
    rw [List.getElem?_append_right hb.2] at hrec
    rw [hrec]
    simp
  · rw [if_neg hb]
    rcases hlk : cacheLookup s.cache k with _ | p
    · simp only
      rw [hrec]
      simp
    · rcases p with ⟨v', c'⟩
      simp only
      have := cacheFindVal_coh hcoh (cacheLookup_some hlk).1
      simp [this]

theorem put_ops_get {s : Datastore} {k : Key} {v : Value} {idxs : List KeyIndex}
    (ttl : Nat) (ops : List Op) (hwf : FidWf s)
    (hargs : checkPutArgs k.length v.length idxs = .Ok)
    (hb : ∀ op ∈ ops, benign k op)
    (hexp : isExpired (applyOps (s.put k v idxs ttl).2 ops).now
      (mkDeadline s.now ttl) = false) :
    (s.put k v idxs ttl).1 = .Ok ∧
    ((applyOps (s.put k v idxs ttl).2 ops).get k).1 = .Ok ∧
    ((applyOps (s.put k v idxs ttl).2 ops).get k).2.1 = v := by
  rcases put_establishes ttl hwf hargs with ⟨hok, hwf1, h1⟩
  rcases preserve_applyOps hwf1 h1 hb with ⟨hwf2, h2⟩
  rcases holds_get_ok h2 hexp with ⟨hg1, hg2⟩
  exact ⟨hok, hg1, hg2⟩

theorem cacheInsert_eq_push_of_lt {c : Cache} {k : Key} {v : Value}
    (h : cacheSize c < c.capacity) : cacheInsert c k v = cachePushHot c k v := by
  unfold cacheInsert
  exact evictLoop_of_le (Nat.le_trans (cachePushHot_size_le c k v) h)

theorem cacheFindVal_of_mem {c : Cache} {k : Key} {v : Value} (hcoh : cacheCoh c k v)
    (hm : k ∈ segKeys c.hot ∨ k ∈ segKeys c.warm ∨ k ∈ segKeys c.cold) :
    cacheFindVal c k = some v := by
  unfold cacheFindVal
  rcases hh : segFind c.hot k with _ | vh
  · rcases hw : segFind c.warm k with _ | vw
    · simp only
      rcases hm with hm | hm | hm
      · rcases segFind_isSome_of_mem hm with ⟨x, hx⟩
        rw [hx] at hh
        cases hh
      · rcases segFind_isSome_of_mem hm with ⟨x, hx⟩
        rw [hx] at hw
        cases hw
      · rcases segFind_isSome_of_mem hm with ⟨x, hx⟩
        rw [hx]
        exact congrArg some (hcoh.2.2 _ (segFind_mem hx) rfl)
    · simp only
      exact congrArg some (hcoh.2.1 _ (segFind_mem hw) rfl)
  · simp only
    exact congrArg some (hcoh.1 _ (segFind_mem hh) rfl)

theorem get_cache_cases (s : Datastore) (k'' : Key) :
    (s.get k'').2.2.cache = s.cache ∨
    (∃ v' c', cacheLookup s.cache k'' = some (v', c') ∧ (s.get k'').2.2.cache = c') ∨
    (∃ v', (s.get k'').2.2.cache = cacheInsert s.cache k'' v') := by
  unfold Datastore.get
  rcases hfind : alistFind s.keyDir k'' with _ | loc
  · exact Or.inl rfl
  · simp only
    split
    · exact Or.inl rfl
    · split
      · split
        · split
          · exact Or.inl rfl
          · exact Or.inl rfl
        · exact Or.inl rfl
      · rcases hlk : cacheLookup s.cache k'' with _ | p
        · simp only
          rcases hra : recordAt s loc with _ | r
          · exact Or.inl rfl
          · simp only
            split
            · exact Or.inr (Or.inr ⟨r.value, rfl⟩)
            · exact Or.inl rfl
        · rcases p with ⟨v', c'⟩
          exact Or.inr (Or.inl ⟨v', c', rfl, rfl⟩)

end StoreLemmas

section Claims

/-- C1: for every open store and valid key/value, if `put(k, v)` returns Ok
then a subsequent `get(k)` — after any interleaving of operations that do not
put or remove `k` (puts and removes of other keys, reads, flushes, file
sealing, cache upkeep, time changes) and with no TTL expiry — returns Ok and
copies out exactly `v`. The interleavings cover all three serving paths:
write buffer (no flush), value cache (after `sync`), and pread (after the
cached value is dropped). Threads are modelled by the single-writer
linearisation of operations the spec guarantees. -/
theorem C1_put_then_get (s : Datastore) (k : Key) (v : Value) (idxs : List KeyIndex)
    (ttl : Nat) (ops : List Op)
    (hwf : FidWf s)
    (hargs : checkPutArgs k.length v.length idxs = .Ok)
    (hb : ∀ op ∈ ops, benign k op)
    (hexp : isExpired (applyOps (s.put k v idxs ttl).2 ops).now
      (mkDeadline s.now ttl) = false) :
    (s.put k v idxs ttl).1 = .Ok ∧
    ((applyOps (s.put k v idxs ttl).2 ops).get k).1 = .Ok ∧
    ((applyOps (s.put k v idxs ttl).2 ops).get k).2.1 = v :=
  put_ops_get ttl ops hwf hargs hb hexp

/-- Witness for C1 at a concrete store: put then sync, an unrelated put, a
cache-upkeep step and a read, then get returns Ok with the stored value. -/
theorem C1_put_then_get_witness :
    ((emptyStore {} 10 0).put [1] [2, 3] [] 0).1 = .Ok ∧
    ((applyOps ((emptyStore {} 10 0).put [1] [2, 3] [] 0).2
      [Op.sync, Op.put [9] [9] [] 5, Op.upkeep, Op.get [1]]).get [1]).1 = .Ok ∧
    ((applyOps ((emptyStore {} 10 0).put [1] [2, 3] [] 0).2
      [Op.sync, Op.put [9] [9] [] 5, Op.upkeep, Op.get [1]]).get [1]).2.1 = [2, 3] := by
  refine C1_put_then_get (emptyStore {} 10 0) [1] [2, 3] [] 0
    [Op.sync, Op.put [9] [9] [] 5, Op.upkeep, Op.get [1]] ?_ (by decide) ?_ (by decide)
  · intro p hp
    simp [emptyStore] at hp
  · intro op hop
    simp only [List.mem_cons, List.not_mem_nil, or_false] at hop
    rcases hop with rfl | rfl | rfl | rfl
    · trivial
    · show ([9] : Key) ≠ [1]
      decide
    · trivial
    · trivial

/-- C4: on a store holding key `k` unexpired, `remove(k)` returns Ok; the
subsequent `get(k)` returns EntryNotFound, a repeated `remove(k)` returns
EntryNotFound, and no query (on any key-part list) returns `k` any more. -/
theorem C4_remove_semantics (s : Datastore) (k : Key) (loc : Loc)
    (hfind : alistFind s.keyDir k = some loc)
    (hexp : isExpired s.now loc.ttlDeadlineSec = false) :
    (s.remove k).1 = .Ok ∧
    ((s.remove k).2.get k).1 = .EntryNotFound ∧
    ((s.remove k).2.remove k).1 = .EntryNotFound ∧
    ∀ parts : List Key, k ∉ ((s.remove k).2.query parts).2 := by
  unfold Datastore.remove
  rw [hfind]
  simp only [hexp, Bool.false_eq_true, if_false]
  refine ⟨by trivial, ?_, ?_, ?_⟩
  · simp [Datastore.get, alistFind_erase_self]
  · simp [alistFind_erase_self]
  · intro parts hmem
    rcases parts with _ | ⟨p0, rest⟩
    · simp [Datastore.query] at hmem
    · by_cases hemp : [] ∈ p0 :: rest
      · simp [Datastore.query, hemp] at hmem
      · simp only [Datastore.query, if_neg hemp] at hmem
        have hval := List.of_mem_filter (List.mem_dedup.1 hmem)
        unfold queryValidate at hval
        simp [alistFind_erase_self] at hval

/-- Witness for C4 at a concrete one-entry store. -/
theorem C4_remove_semantics_witness :
    (((emptyStore {} 10 0).put [5] [9] [⟨0, 1⟩] 0).2.remove [5]).1 = .Ok ∧
    ((((emptyStore {} 10 0).put [5] [9] [⟨0, 1⟩] 0).2.remove [5]).2.get [5]).1 =
      .EntryNotFound ∧
    [5] ∉ ((((emptyStore {} 10 0).put [5] [9] [⟨0, 1⟩] 0).2.remove [5]).2.query [[5]]).2 := by
  have h := C4_remove_semantics ((emptyStore {} 10 0).put [5] [9] [⟨0, 1⟩] 0).2 [5]
    ⟨0, 0, 0⟩ (by decide) (by decide)
  exact ⟨h.1, h.2.1, h.2.2.2 [[5]]⟩

/-- C9: for every store state, a query with an empty part list, or whose part
list contains an empty key-part, returns `Status.Ok` with zero results. -/
theorem C9_query_empty (s : Datastore) :
    (s.query []).1 = .Ok ∧ (s.query []).2 = [] ∧
    ∀ parts : List Key, [] ∈ parts → (s.query parts).1 = .Ok ∧ (s.query parts).2 = [] := by
  refine ⟨rfl, rfl, ?_⟩
  intro parts hmem
  rcases parts with _ | ⟨p0, rest⟩
  · exact ⟨rfl, rfl⟩
  · have hq : s.query (p0 :: rest) = (.Ok, []) := by
      simp [Datastore.query, hmem]
    rw [hq]
    exact ⟨rfl, rfl⟩

/-- Witness for C9 on a non-trivial concrete store. -/
theorem C9_query_empty_witness :
    (((emptyStore {} 10 0).put [5] [9] [⟨0, 1⟩] 0).2.query [[5], []]).1 = .Ok ∧
    (((emptyStore {} 10 0).put [5] [9] [⟨0, 1⟩] 0).2.query [[5], []]).2 = [] :=
  (C9_query_empty ((emptyStore {} 10 0).put [5] [9] [⟨0, 1⟩] 0).2).2.2 [[5], []]
    (by decide)

/-- C7: `put` accepts every key of length 1..65534 (value of any size up to
the documented maximum) and the value is retrieved intact byte for byte,
while a key of length 65535 or more is rejected with `BadKeySize`. -/
theorem C7_key_size (s : Datastore) (k : Key) (v : Value) (hwf : FidWf s) :
    (keySizeOk k.length → v.length ≤ MaxValueSize →
      (s.put k v [] 0).1 = .Ok ∧
      ((s.put k v [] 0).2.get k).1 = .Ok ∧
      ((s.put k v [] 0).2.get k).2.1 = v) ∧
    (65535 ≤ k.length → (s.put k v [] 0).1 = .BadKeySize) := by
  constructor
  · intro hk hv
    have hargs : checkPutArgs k.length v.length [] = .Ok := by
      unfold checkPutArgs
      rw [if_neg (not_not_intro hk), if_neg (Nat.not_lt.2 hv)]
      rw [if_neg (by simp [MaxKeyIndexQty])]
      rfl
    have h := put_ops_get 0 [] hwf hargs
      (fun op hop => absurd hop (List.not_mem_nil op))
      (by simp [applyOps, isExpired, mkDeadline])
    exact h
  · intro hk
    have hbad : checkPutArgs k.length v.length [] = .BadKeySize := by
      unfold checkPutArgs
      rw [if_pos (by unfold keySizeOk; omega)]
    unfold Datastore.put
    rw [hbad]
    simp

/-- Witness for C7: keySize 65000 with a 2,000,000-byte value is accepted and
round-trips; keySize 65535 is rejected with `BadKeySize`. -/
theorem C7_key_size_witness :
    ((emptyStore {} 10 0).put (List.replicate 65000 7) (List.replicate 2000000 43) [] 0).1 =
      .Ok ∧
    (((emptyStore {} 10 0).put (List.replicate 65000 7) (List.replicate 2000000 43) [] 0).2.get
      (List.replicate 65000 7)).2.1 = List.replicate 2000000 43 ∧
    ((emptyStore {} 10 0).put (List.replicate 65535 7) [] [] 0).1 = .BadKeySize := by
  have hwf : FidWf (emptyStore {} 10 0) := by
    intro p hp
    simp [emptyStore] at hp
  have h1 := (C7_key_size (emptyStore {} 10 0) (List.replicate 65000 7)
    (List.replicate 2000000 43) hwf).1
    (by rw [List.length_replicate]; exact ⟨by omega, by omega⟩)
    (by rw [List.length_replicate]; unfold MaxValueSize; omega)
  have h2 := (C7_key_size (emptyStore {} 10 0) (List.replicate 65535 7) [] hwf).2
    (by rw [List.length_replicate])
  exact ⟨h1.1, h1.2.2, h2⟩

/-- C3: an entry put with `ttlSec = 0` never expires; a put with `ttlSec = t`
at wall-clock second `now` stores deadline `now + t` in the key directory;
`get` filters the entry out exactly when the injected time reaches the
deadline; and the concrete injected-time scenario of the TTL unit test holds,
with query results shrinking as the deadlines pass (3, then 2, then 1
matches at times 5, 15, 25 for TTLs 0, 10, 20). -/
theorem C3_ttl_expiry (s : Datastore) (k : Key) (v : Value) (idxs : List KeyIndex)
    (hwf : FidWf s) (hargs : checkPutArgs k.length v.length idxs = .Ok) :
    (∀ T : Nat, (((s.put k v idxs 0).2.setTime T).get k).1 = .Ok ∧
                (((s.put k v idxs 0).2.setTime T).get k).2.1 = v) ∧
    (∀ t : Nat, 1 ≤ t → ∃ loc, alistFind (s.put k v idxs t).2.keyDir k = some loc ∧
       loc.ttlDeadlineSec = s.now + t) ∧
    (∀ t T : Nat, 1 ≤ t →
       (T < s.now + t → (((s.put k v idxs t).2.setTime T).get k).1 = .Ok ∧
                        (((s.put k v idxs t).2.setTime T).get k).2.1 = v) ∧
       (s.now + t ≤ T → (((s.put k v idxs t).2.setTime T).get k).1 = .EntryNotFound)) ∧
    (((((((emptyStore {} 100 0).put [1, 0, 0, 0] [7] [⟨1, 1⟩] 0).2.put
        [2, 0, 0, 0] [8] [⟨1, 1⟩] 10).2.put [3, 0, 0, 0] [9] [⟨1, 1⟩] 20).2.setTime 5).get
        [2, 0, 0, 0]).1 = .Ok ∧
     ((((((emptyStore {} 100 0).put [1, 0, 0, 0] [7] [⟨1, 1⟩] 0).2.put
        [2, 0, 0, 0] [8] [⟨1, 1⟩] 10).2.put [3, 0, 0, 0] [9] [⟨1, 1⟩] 20).2.setTime 15).get
        [2, 0, 0, 0]).1 = .EntryNotFound ∧
     ((((((emptyStore {} 100 0).put [1, 0, 0, 0] [7] [⟨1, 1⟩] 0).2.put
        [2, 0, 0, 0] [8] [⟨1, 1⟩] 10).2.put [3, 0, 0, 0] [9] [⟨1, 1⟩] 20).2.setTime 25).get
        [3, 0, 0, 0]).1 = .EntryNotFound ∧
     ((((((emptyStore {} 100 0).put [1, 0, 0, 0] [7] [⟨1, 1⟩] 0).2.put
        [2, 0, 0, 0] [8] [⟨1, 1⟩] 10).2.put [3, 0, 0, 0] [9] [⟨1, 1⟩] 20).2.setTime 25).get
        [1, 0, 0, 0]).1 = .Ok ∧
     ((((((emptyStore {} 100 0).put [1, 0, 0, 0] [7] [⟨1, 1⟩] 0).2.put
        [2, 0, 0, 0] [8] [⟨1, 1⟩] 10).2.put [3, 0, 0, 0] [9] [⟨1, 1⟩] 20).2.setTime 5).query
        [[0]]).2.length = 3 ∧
     ((((((emptyStore {} 100 0).put [1, 0, 0, 0] [7] [⟨1, 1⟩] 0).2.put
        [2, 0, 0, 0] [8] [⟨1, 1⟩] 10).2.put [3, 0, 0, 0] [9] [⟨1, 1⟩] 20).2.setTime 15).query
        [[0]]).2.length = 2 ∧
     ((((((emptyStore {} 100 0).put [1, 0, 0, 0] [7] [⟨1, 1⟩] 0).2.put
        [2, 0, 0, 0] [8] [⟨1, 1⟩] 10).2.put [3, 0, 0, 0] [9] [⟨1, 1⟩] 20).2.setTime 25).query
        [[0]]).2.length = 1) := by
  refine ⟨?_, ?_, ?_, by decide⟩
  · intro T
    have h := put_ops_get 0 [Op.setTime T] hwf hargs
      (fun op hop => by
        simp only [List.mem_singleton] at hop
        subst hop
        trivial)
      (by simp [applyOps, applyOp, Datastore.setTime, mkDeadline, isExpired])
    exact ⟨h.2.1, h.2.2⟩
  · intro t ht
    rcases put_establishes t hwf hargs with ⟨_, _, ⟨loc, idxs0, hfind, hdl, _⟩, _⟩
    refine ⟨loc, hfind, ?_⟩
    rw [hdl]
    unfold mkDeadline
    rw [if_neg (by omega)]
  · intro t T ht
    constructor
    · intro hT
      have h := put_ops_get t [Op.setTime T] hwf hargs
        (fun op hop => by
          simp only [List.mem_singleton] at hop
          subst hop
          trivial)
        (by
          simp only [applyOps, List.foldl_cons, List.foldl_nil, applyOp, Datastore.setTime]
          unfold mkDeadline isExpired
          rw [if_neg (by omega)]
          simp only [decide_eq_false_iff_not, not_and, ne_eq]
          intro
          omega)
      exact ⟨h.2.1, h.2.2⟩
    · intro hT
      rcases put_establishes t hwf hargs
        with ⟨_, _, ⟨loc, idxs0, hfind, hdl, _⟩, _⟩
      unfold Datastore.get Datastore.setTime
      simp only [hfind]
      have hexp : isExpired T loc.ttlDeadlineSec = true := by
        rw [hdl]
        unfold mkDeadline
        rw [if_neg (by omega)]
        unfold isExpired
        simp only [decide_eq_true_eq, ne_eq]
        exact ⟨by omega, hT⟩
      rw [hexp]
      simp

/-- Witness for C3 at a concrete store, instantiating the never-expires and
the expiry conjuncts. -/
theorem C3_ttl_expiry_witness :
    ((((emptyStore {} 10 0).put [1] [7] [] 0).2.setTime 1000).get [1]).1 = .Ok ∧
    ((((emptyStore {} 10 0).put [1] [7] [] 10).2.setTime 5).get [1]).1 = .Ok ∧
    ((((emptyStore {} 10 0).put [1] [7] [] 10).2.setTime 10).get [1]).1 = .EntryNotFound := by
  have hwf : FidWf (emptyStore {} 10 0) := by
    intro p hp
    simp [emptyStore] at hp
  have h := C3_ttl_expiry (emptyStore {} 10 0) [1] [7] [] hwf (by decide)
  exact ⟨(h.1 1000).1, ((h.2.2.1 10 5 (by omega)).1 (by simp [emptyStore])).1,
    (h.2.2.1 10 10 (by omega)).2 (by simp [emptyStore])⟩

/-- C5: `setConfig` validates the entire configuration before applying any of
it (the stored configuration is untouched on failure); every listed
out-of-range field is rejected with `BadParameterValue`; with all ranges in
order, any selection threshold above its trigger threshold — or a trigger
dead-byte threshold above `dataFileMaxBytes` — is rejected with
`InconsistentParameterValues`; and the concrete checks of the "Config
consistency" unit test hold, including `dataFileMaxBytes = 11000` with
`mergeTriggerDataFileDeadByteThreshold = 11001`. -/
theorem C5_setConfig_validation :
    (∀ (s : Datastore) (c : Config), checkConfig c ≠ .Ok →
      (s.setConfig c).1 = checkConfig c ∧ (s.setConfig c).2 = s) ∧
    (∀ c : Config,
      (c.dataFileMaxBytes < 1024 ∨ c.mergeCyclePeriodMs = 0 ∨ c.upkeepCyclePeriodMs = 0 ∨
       c.upkeepKeyDirBatchSize = 0 ∨ c.upkeepValueCacheBatchSize = 0 ∨
       c.mergeTriggerDataFileFragmentationPercentage = 0 ∨
       100 < c.mergeTriggerDataFileFragmentationPercentage ∨
       c.mergeSelectDataFileFragmentationPercentage = 0 ∨
       100 < c.mergeSelectDataFileFragmentationPercentage ∨
       c.mergeSelectDataFileSmallSizeThreshold < 1024) →
      checkConfig c = .BadParameterValue) ∧
    (∀ c : Config, configRangesOk c →
      (c.mergeTriggerDataFileFragmentationPercentage <
         c.mergeSelectDataFileFragmentationPercentage ∨
       c.mergeTriggerDataFileDeadByteThreshold < c.mergeSelectDataFileDeadByteThreshold ∨
       c.dataFileMaxBytes < c.mergeTriggerDataFileDeadByteThreshold) →
      checkConfig c = .InconsistentParameterValues) ∧
    (checkConfig testConfig = .Ok ∧
     checkConfig {} = .Ok ∧
     checkConfig { testConfig with dataFileMaxBytes := 1023 } = .BadParameterValue ∧
     checkConfig { testConfig with mergeCyclePeriodMs := 0 } = .BadParameterValue ∧
     checkConfig { testConfig with upkeepCyclePeriodMs := 0 } = .BadParameterValue ∧
     checkConfig { testConfig with upkeepKeyDirBatchSize := 0 } = .BadParameterValue ∧
     checkConfig { testConfig with upkeepValueCacheBatchSize := 0 } = .BadParameterValue ∧
     checkConfig { testConfig with mergeTriggerDataFileFragmentationPercentage := 0 } =
       .BadParameterValue ∧
     checkConfig { testConfig with mergeTriggerDataFileFragmentationPercentage := 101 } =
       .BadParameterValue ∧
     checkConfig { testConfig with mergeTriggerDataFileDeadByteThreshold := 11001 } =
       .InconsistentParameterValues ∧
     checkConfig { testConfig with mergeSelectDataFileFragmentationPercentage := 0 } =
       .BadParameterValue ∧
     checkConfig { testConfig with mergeSelectDataFileFragmentationPercentage := 101 } =
       .BadParameterValue ∧
     checkConfig { testConfig with mergeSelectDataFileFragmentationPercentage := 3 } =
       .InconsistentParameterValues ∧
     checkConfig { testConfig with mergeSelectDataFileDeadByteThreshold := 10001 } =
       .InconsistentParameterValues ∧
     checkConfig { testConfig with mergeSelectDataFileSmallSizeThreshold := 1023 } =
       .BadParameterValue) := by
  refine ⟨?_, ?_, ?_, by decide⟩
  · intro s c h
    unfold Datastore.setConfig
    rw [if_neg h]
    exact ⟨rfl, rfl⟩
  · intro c h
    unfold checkConfig
    rw [if_pos (fun hR => by unfold configRangesOk at hR; omega)]
  · intro c hR hX
    unfold checkConfig
    rw [if_neg (not_not_intro hR), if_pos (fun hC => by unfold configCrossOk at hC; omega)]

/-- Witness for C5, instantiating the unchanged-on-failure and range
conjuncts at a concrete store and configuration. -/
theorem C5_setConfig_validation_witness :
    ((emptyStore {} 10 0).setConfig { testConfig with dataFileMaxBytes := 1023 }).2 =
      emptyStore {} 10 0 ∧
    checkConfig { testConfig with upkeepKeyDirBatchSize := 0 } = .BadParameterValue ∧
    checkConfig { testConfig with mergeTriggerDataFileDeadByteThreshold := 11001 } =
      .InconsistentParameterValues := by
  refine ⟨(C5_setConfig_validation.1 (emptyStore {} 10 0)
    { testConfig with dataFileMaxBytes := 1023 } (by decide)).2,
    C5_setConfig_validation.2.1 { testConfig with upkeepKeyDirBatchSize := 0 }
      (by decide),
    C5_setConfig_validation.2.2.1 { testConfig with mergeTriggerDataFileDeadByteThreshold := 11001 }
      (by decide) (by decide)⟩

/-- C6 counterexample: the unit test requires a zero-size key index to be
rejected with `InconsistentKeyIndex` — key of length 9, value of length 128,
indexes `[{0,2},{5,0}]` — although the claim's stated condition
(`startIdx + size` beyond the key, or more than 64 indexes) does not hold
there, so the claim's "exactly when" is false as stated. -/
theorem C6_counterexample :
    checkPutArgs 9 128 [⟨0, 2⟩, ⟨5, 0⟩] = .InconsistentKeyIndex ∧
    ¬ claimC6Inconsistent 9 [⟨0, 2⟩, ⟨5, 0⟩] := by
  constructor
  · decide
  · decide

/-- C6 (amended): with a valid key and value size, `put` returns
`InconsistentKeyIndex` exactly when a declared index has zero size or names
bytes beyond the key, or more than 64 indexes are declared; it returns
`UnorderedKeyIndex` exactly when the indexes are individually consistent but
the array is not strictly ordered on `(startIdx, size)` (equal consecutive
pairs included); a rejected put leaves the store unmodified. -/
theorem C6_index_validation (keyLen valueLen : Nat) (idxs : List KeyIndex)
    (hk : keySizeOk keyLen) (hv : valueLen ≤ MaxValueSize) :
    (checkPutArgs keyLen valueLen idxs = .InconsistentKeyIndex ↔
      (MaxKeyIndexQty < idxs.length ∨
        ∃ ki ∈ idxs, ki.size = 0 ∨ keyLen < ki.startIdx + ki.size)) ∧
    (checkPutArgs keyLen valueLen idxs = .UnorderedKeyIndex ↔
      (¬ (MaxKeyIndexQty < idxs.length ∨
           ∃ ki ∈ idxs, ki.size = 0 ∨ keyLen < ki.startIdx + ki.size) ∧
       kiStrictOrdered idxs = false)) ∧
    (∀ (s : Datastore) (k : Key) (v : Value) (ttl : Nat),
      (s.put k v idxs ttl).1 ≠ .Ok → (s.put k v idxs ttl).2 = s) := by
  refine ⟨?_, ?_, ?_⟩
  · unfold checkPutArgs
    rw [if_neg (not_not_intro hk), if_neg (Nat.not_lt.2 hv)]
    by_cases hin : MaxKeyIndexQty < idxs.length ∨ ∃ ki ∈ idxs, kiBad keyLen ki
    · rw [if_pos hin]
      simp only [kiBad] at hin
      exact iff_of_true rfl hin
    · rw [if_neg hin]
      simp only [kiBad] at hin
      refine iff_of_false ?_ hin
      by_cases hord : kiStrictOrdered idxs = true
      · rw [if_pos hord]
        exact fun h => Status.noConfusion h
      · rw [if_neg hord]
        exact fun h => Status.noConfusion h
  · unfold checkPutArgs
    rw [if_neg (not_not_intro hk), if_neg (Nat.not_lt.2 hv)]
    by_cases hin : MaxKeyIndexQty < idxs.length ∨ ∃ ki ∈ idxs, kiBad keyLen ki
    · rw [if_pos hin]
      simp only [kiBad] at hin
      exact iff_of_false (fun h => Status.noConfusion h) (fun hc => hc.1 hin)
    · rw [if_neg hin]
      simp only [kiBad] at hin
      by_cases hord : kiStrictOrdered idxs = true
      · rw [if_pos hord]
        refine iff_of_false (fun h => Status.noConfusion h) ?_
        intro hc
        rw [hord] at hc
        exact Bool.noConfusion hc.2
      · rw [if_neg hord]
        exact iff_of_true rfl ⟨hin, by simpa using hord⟩
  · intro s k v ttl hne
    by_cases hc : checkPutArgs k.length v.length idxs = .Ok
    · unfold Datastore.put at hne
      rw [if_pos hc] at hne
      exact absurd rfl hne
    · unfold Datastore.put
      rw [if_neg hc]

/-- Witness for the amended C6, instantiating all three conjuncts at the
counterexample input and a concrete store. -/
theorem C6_index_validation_witness :
    (checkPutArgs 9 128 [⟨0, 2⟩, ⟨5, 0⟩] = .InconsistentKeyIndex ↔
      (MaxKeyIndexQty < ([⟨0, 2⟩, ⟨5, 0⟩] : List KeyIndex).length ∨
        ∃ ki ∈ ([⟨0, 2⟩, ⟨5, 0⟩] : List KeyIndex), ki.size = 0 ∨ 9 < ki.startIdx + ki.size)) ∧
    ((emptyStore {} 10 0).put [0, 1, 2, 3, 4, 5, 6, 7, 8] [7]
      [⟨0, 2⟩, ⟨5, 0⟩] 0).2 = emptyStore {} 10 0 := by
  have h := C6_index_validation 9 128 [⟨0, 2⟩, ⟨5, 0⟩] (by decide) (by decide)
  exact ⟨h.1, h.2.2 (emptyStore {} 10 0) [0, 1, 2, 3, 4, 5, 6, 7, 8] [7] 0 (by decide)⟩

/-- C2: a tombstone read from a selected file is preserved in the merged
output exactly when some sealed data file with a lower file id was not
included in the merge set; and concretely — write k to file 1, overwrite k
in file 2, delete k in file 3, merge exactly files 1 and 3, close and reopen
— `get(k)` returns `EntryNotFound`: the live version left in the unmerged
file 2 is not resurrected by recovery. -/
theorem C2_merge_tombstone_retention :
    (∀ (s : Datastore) (mergeSet : List Nat) (fid i : Nat) (r : DataRec),
      r.tomb = true →
      (mergeKeep s mergeSet fid i r = true ↔
        ∃ p ∈ s.sealedFiles, p.1 < fid ∧ p.1 ∉ mergeSet)) ∧
    ((((((((emptyStore {} 100 0).put [1] [7] [] 0).2.seal.put
      [1] [8] [] 0).2.seal.remove [1]).2.seal).mergeFiles [0, 2]).reopen).get [1]).1 =
        .EntryNotFound := by
  constructor
  · intro s mergeSet fid i r htomb
    unfold mergeKeep keepTombstone
    rw [htomb]
    simp only [if_true]
    exact decide_eq_true_iff
  · decide

/-- Witness for the quantified conjunct of C2 at a concrete store and merge
set: the tombstone in file 2 is kept because file 1 is sealed, lower, and not
merged. -/
theorem C2_merge_tombstone_retention_witness :
    mergeKeep (((((emptyStore {} 100 0).put [1] [7] [] 0).2.seal.put
      [1] [8] [] 0).2.seal.remove [1]).2.seal) [2] 2 0
      ({ key := [1], value := [], ttlDeadlineSec := 0, tomb := true, indexes := [] } : DataRec) =
      true := by
  have h := C2_merge_tombstone_retention.1
    (((((emptyStore {} 100 0).put [1] [7] [] 0).2.seal.put
      [1] [8] [] 0).2.seal.remove [1]).2.seal) [2] 2 0
    ({ key := [1], value := [], ttlDeadlineSec := 0, tomb := true, indexes := [] } : DataRec) rfl
  exact h.2 (by decide)

/-- C8: the value cache is scan-resistant — (a) a key inserted with room to
spare and then accessed once moves to the warm queue; (b) once warm, any
number of unrelated inserts (in particular two full cache-capacity passes)
leave it a cache hit, still warm; (c) after the upkeep task demotes it to the
cold queue, a single further access rescues it back to warm instead of
letting it be evicted — it becomes evictable only when it fails that second
access. -/
theorem C8_cache_scan_resistance :
    (∀ (c : Cache) (k : Key) (v : Value), cacheSize c < c.capacity →
      ∃ c', cacheLookup (cacheInsert c k v) k = some (v, c') ∧ k ∈ segKeys c'.warm) ∧
    (∀ (c : Cache) (k : Key) (v : Value) (us : List (Key × Value)),
      cacheSize c ≤ c.capacity → cacheCoh c k v → k ∈ segKeys c.warm →
      (∀ u ∈ us, u.1 ≠ k) →
      cacheFindVal (us.foldl (fun c' e => cacheInsert c' e.1 e.2) c) k = some v ∧
      k ∈ segKeys (us.foldl (fun c' e => cacheInsert c' e.1 e.2) c).warm) ∧
    (∀ (c : Cache) (k : Key) (v : Value), cacheCoh c k v → k ∈ segKeys c.cold →
      ∃ c', cacheLookup c k = some (v, c') ∧ k ∈ segKeys c'.warm) := by
  refine ⟨?_, ?_, ?_⟩
  · intro c k v hroom
    rw [cacheInsert_eq_push_of_lt hroom]
    have hfv : cacheFindVal (cachePushHot c k v) k = some v := by
      unfold cacheFindVal cachePushHot segFind
      simp
    unfold cacheLookup
    rw [hfv]
    exact ⟨_, rfl, by simp [segKeys]⟩
  · intro c k v us hsz hcoh hwarm hus
    rcases scan_preserves us c hsz hcoh hwarm hus with ⟨hsz2, hcoh2, hwarm2⟩
    exact ⟨cacheFindVal_of_warm hcoh2 hwarm2, hwarm2⟩
  · intro c k v hcoh hcold
    have hfv : cacheFindVal c k = some v := cacheFindVal_of_mem hcoh (Or.inr (Or.inr hcold))
    unfold cacheLookup
    rw [hfv]
    exact ⟨_, rfl, by simp [segKeys]⟩

/-- Witness for C8: a concrete warm-resident key survives a scan of
unrelated inserts larger than the cache capacity and is rescued from cold by
one access. -/
theorem C8_cache_scan_resistance_witness :
    (cacheFindVal ([([2], [6]), ([3], [6]), ([4], [6])].foldl
      (fun c' e => cacheInsert c' e.1 e.2)
      { hot := [], warm := [([1], [5])], cold := [], capacity := 2 }) [1] = some [5] ∧
     [1] ∈ segKeys ([([2], [6]), ([3], [6]), ([4], [6])].foldl
      (fun c' e => cacheInsert c' e.1 e.2)
      { hot := [], warm := [([1], [5])], cold := [], capacity := 2 }).warm) ∧
    (∃ c', cacheLookup { hot := [], warm := [], cold := [([1], [5])], capacity := 2 } [1] =
      some ([5], c') ∧ [1] ∈ segKeys c'.warm) := by
  constructor
  · refine C8_cache_scan_resistance.2.1
      { hot := [], warm := [([1], [5])], cold := [], capacity := 2 } [1] [5]
      [([2], [6]), ([3], [6]), ([4], [6])] (by decide) ?_ (by decide) ?_
    · refine ⟨?_, ?_, ?_⟩ <;> intro e he hk <;> simp_all [cohList]
    · intro u hu
      simp only [List.mem_cons, List.not_mem_nil, or_false] at hu
      rcases hu with rfl | rfl | rfl
      · decide
      · decide
      · decide
  · exact C8_cache_scan_resistance.2.2
      { hot := [], warm := [], cold := [([1], [5])], capacity := 2 } [1] [5]
      (by refine ⟨?_, ?_, ?_⟩ <;> intro e he hk <;> simp_all [cohList]) (by decide)

/-- C10: the value cache holds at most one entry per key at every point
visible to the caller — (a) every datastore operation preserves the
one-entry-per-key property; (b) a first put of key `k` (cache not full)
increments `currentInCacheValueQty` by one; (c) an overwriting put of the
same key leaves the count unchanged; (d) a successful `remove(k)` purges the
cached value within the same call, decrementing the count by one. -/
theorem C10_cache_single_entry :
    (∀ (s : Datastore) (op : Op), cacheKeysNodup s.cache →
      cacheKeysNodup (applyOp s op).cache) ∧
    (∀ (s : Datastore) (k : Key) (v : Value) (idxs : List KeyIndex) (ttl : Nat),
      checkPutArgs k.length v.length idxs = .Ok →
      k ∉ cacheKeys s.cache → cacheSize s.cache < s.cache.capacity →
      cacheSize (s.put k v idxs ttl).2.cache = cacheSize s.cache + 1) ∧
    (∀ (s : Datastore) (k : Key) (v : Value) (idxs : List KeyIndex) (ttl : Nat),
      checkPutArgs k.length v.length idxs = .Ok →
      cacheKeysNodup s.cache → k ∈ cacheKeys s.cache →
      cacheSize s.cache ≤ s.cache.capacity →
      cacheSize (s.put k v idxs ttl).2.cache = cacheSize s.cache) ∧
    (∀ (s : Datastore) (k : Key) (loc : Loc),
      alistFind s.keyDir k = some loc → isExpired s.now loc.ttlDeadlineSec = false →
      cacheKeysNodup s.cache → k ∈ cacheKeys s.cache →
      cacheSize (s.remove k).2.cache = cacheSize s.cache - 1 ∧
      k ∉ cacheKeys (s.remove k).2.cache) := by
  refine ⟨?_, ?_, ?_, ?_⟩
  · intro s op hd
    cases op with
    | put k v idxs ttl =>
      simp only [applyOp, Datastore.put]
      split
      · exact cacheKeysNodup_insert hd k v
      · exact hd
    | remove k =>
      simp only [applyOp]
      unfold Datastore.remove
      rcases hf : alistFind s.keyDir k with _ | loc <;> simp only [hf]
      · exact hd
      · split
        · exact hd
        · exact cacheKeysNodup_purge hd k
    | get k =>
      simp only [applyOp]
      rcases get_cache_cases s k with hc | ⟨v', c', hlk, hc⟩ | ⟨v', hc⟩
      · rw [hc]
        exact hd
      · rw [hc]
        exact cacheKeysNodup_lookup hd hlk
      · rw [hc]
        exact cacheKeysNodup_insert hd k v'
    | sync => exact hd
    | sealFile => exact hd
    | upkeep => exact cacheKeysNodup_demote hd
    | setTime t => exact hd
  · intro s k v idxs ttl hargs hfresh hroom
    unfold Datastore.put
    rw [if_pos hargs]
    exact cacheSize_insert_fresh v hfresh hroom
  · intro s k v idxs ttl hargs hd hmem hsz
    unfold Datastore.put
    rw [if_pos hargs]
    exact cacheSize_insert_mem v hd hmem hsz
  · intro s k loc hfind hexp hd hmem
    unfold Datastore.remove
    rw [hfind]
    simp only [hexp, Bool.false_eq_true, if_false]
    exact ⟨cacheSize_purge_of_mem hd hmem, cachePurge_not_mem_keys _ _⟩

/-- Witness for C10: concrete first put, overwriting put and remove on a
fresh store, with the expected cache counts. -/
theorem C10_cache_single_entry_witness :
    cacheSize ((emptyStore {} 10 0).put [1] [7] [] 0).2.cache =
      cacheSize (emptyStore {} 10 0).cache + 1 ∧
    cacheSize (((emptyStore {} 10 0).put [1] [7] [] 0).2.put [1] [8] [] 0).2.cache =
      cacheSize ((emptyStore {} 10 0).put [1] [7] [] 0).2.cache ∧
    cacheSize (((emptyStore {} 10 0).put [1] [7] [] 0).2.remove [1]).2.cache =
      cacheSize ((emptyStore {} 10 0).put [1] [7] [] 0).2.cache - 1 := by
  refine ⟨C10_cache_single_entry.2.1 (emptyStore {} 10 0) [1] [7] [] 0
      (by decide) (by decide) (by decide),
    C10_cache_single_entry.2.2.1 ((emptyStore {} 10 0).put [1] [7] [] 0).2 [1] [8] [] 0
      (by decide) ?_ (by decide) (by decide),
    (C10_cache_single_entry.2.2.2 ((emptyStore {} 10 0).put [1] [7] [] 0).2 [1]
      ⟨0, 0, 0⟩ (by decide) (by decide) ?_ (by decide)).1⟩
  · unfold cacheKeysNodup
    decide
  · unfold cacheKeysNodup
    decide

end Claims

end Litecask
